import Mathlib

/-!
# diversesample: the stream driver of the diversity sampler

A shallow embedding of `src/targets/diversesample.cpp` (the function `main`).

* C strings and `std::string` are `String`; `argv` is a `List String`, and
  `argv[argc]`, the terminating null pointer, is the position past its end.
* The argument strings lie in memory one after the other, each followed by
  its terminator, and `argv[i]` points at the first byte of the `i`-th.
  `strcat(argv[j], ".weights")` (lines 95, 102, 103) writes past the end of
  its argument into the bytes of the arguments that follow, so the
  arguments are re-read from the bytes after the calls (`openStreams`).
  This is the layout in which the process receives its arguments; for the
  language the write past the end is undefined.  A `Char` stands for one
  byte.
* `int` values are `Int`: the source does signed arithmetic only where the
  C++ abstract machine computes the mathematical result (an overflow there
  is undefined, not a wrap).  The one conversion that wraps by definition,
  `int` to `unsigned int` for the seed, is written with `% 2 ^ 32`.
* `long double` values (`KDE`, `weight`) are exact rationals.
* The headers `io.h`, `SequenceMinHash.h`, `RACE.h`, `util.h` and
  `Reservoir.h` are not part of the sources.  The MinHash extractor, the
  rehasher and the RACE sketch are parameters of the driver (`Parts`); the
  parsers are represented by the sequence of results they report
  (`Event`); the weighted reservoir, with its random generator, is
  modelled from the specification, and so is the RACE sketch (`Sketch`)
  where a property assumes its specified behaviour.
* The input is a finite sequence of parser results, so the stream loop is
  a fold over it and always ends.
-/

namespace DiverseSample

/-! ## Process outcome -/

/-- How the process ends: `main` returns a code, or the run is terminated
abnormally (an exception escaping `std::stoi`, or the null `argv[argc]`
handed to `open`/`strcat`). -/
inductive Status where
  | returned (code : Int)
  | aborted
  deriving DecidableEq, Repr

/-! ## `std::stoi` -/

/-- The characters `std::isspace` accepts in the "C" locale. -/
def isSpaceC (c : Char) : Bool :=
  c = ' ' || c = '\t' || c = '\n' || c = Char.ofNat 11 || c = Char.ofNat 12 || c = '\r'

/-- Value of a run of decimal digits. -/
def digitsValue (ds : List Char) : Nat :=
  ds.foldl (fun acc d => 10 * acc + (d.toNat - 48)) 0

/-- The call `std::stoi(s)` in base 10: leading white space is skipped, an
optional sign is read, then the longest run of digits; what follows is
ignored.  `none` stands for the two exceptions (`invalid_argument` when
there is no digit, `out_of_range` when the value does not fit an `int`). -/
def stoi (s : String) : Option Int :=
  let cs := s.data.dropWhile isSpaceC
  let signed : Bool × List Char :=
    match cs with
    | '-' :: r => (true, r)
    | '+' :: r => (false, r)
    | r => (false, r)
  let ds := signed.2.takeWhile Char.isDigit
  if ds = [] then none
  else
    let v : Int := if signed.1 then -(digitsValue ds : Int) else (digitsValue ds : Int)
    if v < -2147483648 ∨ 2147483647 < v then none else some v

/-! ## Positional arguments (lines 38-80) -/

/-- The `format` enumeration of the source: 1 = unpaired, 2 = interleaved,
3 = paired. -/
inductive Format where
  | SE
  | I
  | PE
  deriving DecidableEq, Repr

/-- Lines 38-80: the usage check, `sample_size` and `format`. -/
def positional (argv : List String) : Except Status (Int × Format) :=
  if argv.length < 4 then .error (.returned (-1))
  else
    match stoi (argv.getD 1 "") with
    | none => .error .aborted
    | some sample_size =>
      if argv.getD 2 "" = "SE" then .ok (sample_size, .SE)
      else if argv.getD 2 "" = "I" then .ok (sample_size, .I)
      else if argv.getD 2 "" = "PE" then
        if argv.length < 7 then .error (.returned (-1)) else .ok (sample_size, .PE)
      else .error (.returned (-1))

/-! ## The argument strings in memory -/

/-- The terminator of a C string. -/
def NUL : Char := Char.ofNat 0

/-- The bytes of a run of argument strings as the system lays them out: one
string after the other, each followed by its terminator. -/
def argBlock : List String → List Char
  | [] => []
  | a :: rest => a.data ++ NUL :: argBlock rest

/-- The pointers to the strings of `argBlock`, as offsets into it, when the
first string lies at offset `off`. -/
def argOffsets : Nat → List String → List Nat
  | _, [] => []
  | off, a :: rest => off :: argOffsets (off + a.length + 1) rest

/-- The C string a pointer at offset `off` reads: the bytes up to the first
terminator. -/
def cstr (mem : List Char) (off : Nat) : String :=
  String.mk ((mem.drop off).takeWhile (fun c => c ≠ NUL))

/-- Storing `bytes` from offset `pos` on.  What lies after the argument
strings (the environment strings) is never read by the program, so bytes
stored past the end of `mem` just extend it. -/
def poke (mem : List Char) (pos : Nat) (bytes : List Char) : List Char :=
  mem.take pos ++ bytes ++ mem.drop (pos + bytes.length)

/-- The call `strcat(dest, src)` for a pointer `dest` into `mem`: the bytes
of `src` and a terminator are stored from the terminator of the string at
`dest` on, whatever lies there. -/
def strcat (mem : List Char) (dest : Nat) (src : String) : List Char :=
  poke mem (dest + (cstr mem dest).length) (src.data ++ [NUL])

/-! ## Opening the streams (lines 82-106) -/

/-- What lines 82-106 leave behind: `argv` as the pointers read after the
calls of `strcat`, the paths opened for reading and for writing, and the
capacities handed to `Reservoir(sample_size)` (the two objects initialised
from `NULL` at lines 86 and 90 are not listed). -/
structure Setup where
  argv : List String
  inputs : List String
  outputs : List String
  constructed : List Int
  deriving DecidableEq, Repr

/-- Lines 92-106.  The arguments before the first output path lie before
every byte `strcat` writes and are kept; the output path(s) and the
arguments after them are read again, through their unchanged pointers,
from the bytes as the calls of `strcat` leave them: line 95 for
`format != 3`, lines 102 and 103 in this order for paired input.  With
`format != 3` and `argc == 4` the output path is the null `argv[4]`. -/
def openStreams (argv : List String) (format : Format) (sample_size : Int) : Option Setup :=
  match format with
  | .PE =>
    let mem := argBlock (argv.drop 5)
    let ptrs := argOffsets 0 (argv.drop 5)
    let mem1 := strcat mem (ptrs.getD 0 0) ".weights"
    let weights1 := cstr mem1 (ptrs.getD 0 0)
    let mem2 := strcat mem1 (ptrs.getD 1 0) ".weights"
    let weights2 := cstr mem2 (ptrs.getD 1 0)
    some { argv := argv.take 5 ++ ptrs.map (cstr mem2),
           inputs := [argv.getD 3 "", argv.getD 4 ""],
           outputs := [argv.getD 5 "", argv.getD 6 "", weights1, weights2],
           constructed := [sample_size, sample_size] }
  | _ =>
    match argv[4]? with
    | none => none
    | some out =>
      let mem := argBlock (argv.drop 4)
      let ptrs := argOffsets 0 (argv.drop 4)
      let mem1 := strcat mem (ptrs.getD 0 0) ".weights"
      some { argv := argv.take 4 ++ ptrs.map (cstr mem1),
             inputs := [argv.getD 3 ""],
             outputs := [out, cstr mem1 (ptrs.getD 0 0)],
             constructed := [sample_size] }

/-! ## File extension (lines 108-125) -/

/-- The call `s.rfind(c, s.length())`: index of the last occurrence of `c`,
counted from `i` for the head of the list; `none` is `npos`. -/
def rfindFrom (c : Char) : List Char → Nat → Option Nat
  | [], _ => none
  | x :: xs, i =>
    match rfindFrom c xs (i + 1) with
    | some j => some j
    | none => if x = c then some i else none

/-- The call `s.substr(pos, n)` for `pos <= s.length()`. -/
def substr (s : List Char) (pos n : Nat) : List Char :=
  (s.drop pos).take n

/-- Lines 109-120: the value of `file_extension` after the two `if`s, or
`none` when the source returns -1 for a name without a dot. -/
def determineExtension (filename : String) : Option String :=
  let file_extension := ""
  let idx := rfindFrom '.' filename.data 0
  let file_extension := if file_extension = "fq" then "fastq" else file_extension
  match idx with
  | some i => some (String.mk (substr filename.data (i + 1) (filename.length - i)))
  | none =>
    let _unused := file_extension
    none

/-- Lines 109-120 with the test `file_extension == "fq"` of line 112
removed. -/
def determineExtensionWithoutFqTest (filename : String) : Option String :=
  match rfindFrom '.' filename.data 0 with
  | some i => some (String.mk (substr filename.data (i + 1) (filename.length - i)))
  | none => none

/-- The extension as the specification words it: split the name on its
last `.` and take what follows; an error (`none`) when there is no `.`. -/
def splitOnLastDot (filename : String) : Option String :=
  if '.' ∈ filename.data then
    some (String.mk (filename.data.reverse.takeWhile (fun c => c ≠ '.')).reverse)
  else none

/-- Lines 109-125: the extension handed to the parsers, or the early
return. -/
def fileExtension (filename : String) : Except Status String :=
  match determineExtension filename with
  | none => .error (.returned (-1))
  | some file_extension =>
    if file_extension ≠ "fasta" ∧ file_extension ≠ "fastq" then .error (.returned (-1))
    else .ok file_extension

/-! ## Optional arguments (lines 127-176) -/

/-- The five optional parameters. -/
structure Options where
  race_range : Int
  race_repetitions : Int
  hash_power : Int
  kmer_k : Int
  seed : Nat
  deriving DecidableEq, Repr

/-- Lines 128-132; `clock` is the value `clock()` returns. -/
def defaultOptions (clock : Nat) : Options :=
  { race_range := 10000, race_repetitions := 10, hash_power := 1, kmer_k := 16,
    seed := clock % 2 ^ 32 }

/-- The body shared by the five option tests: `rest` holds `argv[i+1..]`,
so `(i+1) < argc` says that `rest` is not empty. -/
def optionValue (rest : List String) : Except Status Int :=
  match rest with
  | [] => .error (.returned (-1))
  | v :: _ =>
    match stoi v with
    | some n => .ok n
    | none => .error .aborted

/-- One iteration of the loop of line 134 at `argv[i] = a`, with
`rest = argv[i+1..]`. -/
def scanArg (a : String) (rest : List String) (o : Options) : Except Status Options := do
  let o ← if a = "--range" then
      (do let v ← optionValue rest; pure { o with race_range := v })
    else pure o
  let o ← if a = "--reps" then
      (do let v ← optionValue rest; pure { o with race_repetitions := v })
    else pure o
  let o ← if a = "--hashes" then
      (do let v ← optionValue rest; pure { o with hash_power := v })
    else pure o
  let o ← if a = "--k" then
      (do let v ← optionValue rest; pure { o with kmer_k := v })
    else pure o
  let o ← if a = "--seed" then
      (do let v ← optionValue rest; pure { o with seed := (v % 2 ^ 32).toNat })
    else pure o
  pure o

/-- Lines 134-176: the loop `for (i = 0; i < argc; ++i)` over the whole of
`argv`, program name and positional arguments included. -/
def scanOptions : List String → Options → Except Status Options
  | [], o => .ok o
  | a :: rest, o =>
    match scanArg a rest o with
    | .error st => .error st
    | .ok o1 => scanOptions rest o1

/-! ## Validation (lines 180-185) -/

/-- The configuration of a run as lines 38-176 parse it: the positional
arguments, the file extension and the five optional parameters. -/
structure Config where
  sample_size : Int
  format : Format
  file_extension : String
  race_range : Int
  race_repetitions : Int
  hash_power : Int
  kmer_k : Int
  seed : Nat
  deriving DecidableEq, Repr

/-- Lines 181-185: `true` when one of the five checks returns -1. -/
def invalid (c : Config) : Bool :=
  decide (c.sample_size ≤ 0) || decide (c.race_range ≤ 0) || decide (c.race_repetitions ≤ 0)
    || decide (c.hash_power ≤ 0) || decide (c.kmer_k ≤ 0)

/-! ## The collaborators of the driver -/

/-- The operations of `SequenceMinHash.h`, `util.h` and `RACE.h` the driver
calls; `σ` is the state of the RACE sketch.
* `getHash m seed k sequence` is `SequenceMinHash(m, seed).getHash(k,
  sequence, raw_hashes)`, giving the contents of `raw_hashes`;
* `rehash raw R p` is `rehash(raw_hashes, rehashes, R, p)`, giving the
  contents of `rehashes`;
* `RACE R B` is the constructor;
* `query_and_add sketch rehashes` gives the returned value and the sketch
  after the call. -/
structure Parts (σ : Type) where
  getHash : Int → Nat → Int → String → List Int
  rehash : List Int → Int → Int → List Int
  RACE : Int → Int → σ
  query_and_add : σ → List Int → ℚ × σ

/-- The buffers a successful parser call fills: the sequence to hash and
the verbatim chunk(s) of the record (`chunk2` is only written by the paired
parser). -/
structure Read where
  sequence : String
  chunk1 : String
  chunk2 : String
  deriving DecidableEq, Repr

/-- What one call of the format's parser (`SequenceFeaturesSE`,
`SequenceFeaturesI`, `SequenceFeaturesPE`) reports: `record` is
`success = true` with the buffers it filled, `skip` is `success = false`. -/
inductive Event where
  | record (r : Read)
  | skip
  deriving DecidableEq, Repr

/-- Everything outside the program that a run depends on: the value of
`clock()`, whether the first input can be opened, the parser results of the
successive loop iterations while the first input stream stays readable,
the parser result on a stream that was never opened, and the uniform
random generator of the reservoirs (`rng seed n` is the `n`-th draw,
counted from 0, of a generator seeded with `seed`). -/
structure World where
  clock : Nat
  input_opens : Bool
  events : List Event
  failed_read : Event
  rng : Nat → Nat → ℚ

/-! ## The RACE sketch of the specification -/

/-- Modelled from the spec: the RACE sketch of `RACE.h`, a counter array
`C[0..R, 0..B)`, kept as a total map from (row, bucket) to the count. -/
structure Sketch where
  R : Int
  B : Int
  C : Nat → Int → Nat

/-- Modelled from the spec: the constructor `RACE(R, B)` of `RACE.h`, which
allocates the counters zeroed. -/
def Sketch.RACE (R B : Int) : Sketch :=
  { R := R, B := B, C := fun _ _ => 0 }

/-- Modelled from the spec: `query_and_add` of `RACE.h`: the sum `s` of the
addressed counters, the returned `kde = s / R` (the state before the
increment), and the increment of `C[i, buckets[i]]` for every row `i`. -/
def Sketch.query_and_add (sk : Sketch) (buckets : List Int) : ℚ × Sketch :=
  let s : Nat := ((List.range sk.R.toNat).map (fun i => sk.C i (buckets.getD i 0))).sum
  ((s : ℚ) / (sk.R : ℚ),
   { sk with C := fun i j =>
      if i < sk.R.toNat ∧ j = buckets.getD i 0 then sk.C i j + 1 else sk.C i j })

/-! ## The weighted reservoir of the specification -/

/-- What a reservoir stores next to a payload: the weight, the auxiliary
kde and the uniform draw `u` that, with the weight, determines the key
`q = u^(1/weight)`. -/
structure Meta where
  weight : ℚ
  kde : ℚ
  u : ℚ
  deriving DecidableEq, Repr

/-- Modelled from the spec: the order of the keys `q = u^(1/weight)` of
`Reservoir.h`, with a weight that is not positive handled as key `0`.  For
positive weights `n/d` and `n'/d'`, `u^(d/n) < v^(d'/n')` is decided
exactly as `u^(d*n') < v^(d'*n)`. -/
def keyLt (a b : Meta) : Bool :=
  if b.weight ≤ 0 then false
  else if a.weight ≤ 0 then decide (0 < b.u)
  else decide (a.u ^ (a.weight.den * b.weight.num.toNat)
                < b.u ^ (b.weight.den * a.weight.num.toNat))

/-- Position and value of the smallest key stored (the earliest one among
equal keys). -/
def smallest : List Meta → Option (Nat × Meta)
  | [] => none
  | m :: ms =>
    match smallest ms with
    | none => some (0, m)
    | some (i, least) => if keyLt least m then some (i + 1, least) else some (0, m)

/-- Modelled from the spec: the weighted reservoir of `Reservoir.h`: a
capacity, the retained entries in the order of their insertion, and its
own random generator, which the specification seeds with the seed of the
run (section 9: the seed is passed into the reservoir's generator, no
process-wide generator is relied on; section 8, property 3: the same seed
replays the same draws).  `drawn` counts the draws made so far. -/
structure Reservoir (α : Type) where
  capacity : Int
  seed : Nat
  drawn : Nat
  entries : List (α × Meta)

/-- Modelled from the spec: the retention rule of `put` of `Reservoir.h`
for the draw `u`: insert while fewer than `S` items are stored; otherwise,
if the new key exceeds the smallest key stored, evict that minimum and
insert. -/
def Reservoir.retain {α : Type} (r : Reservoir α) (u : ℚ) (payload : α) (weight kde : ℚ) :
    Reservoir α :=
  let m : Meta := { weight := weight, kde := kde, u := u }
  if (r.entries.length : Int) < r.capacity then
    { r with entries := r.entries ++ [(payload, m)] }
  else
    match smallest (r.entries.map Prod.snd) with
    | none => r
    | some (i, least) =>
      if keyLt least m then { r with entries := r.entries.eraseIdx i ++ [(payload, m)] }
      else r

/-- Modelled from the spec: `put(payload, weight, kde)` of `Reservoir.h`:
draw `u` from the reservoir's generator, then apply the retention rule. -/
def Reservoir.put {α : Type} (rng : Nat → Nat → ℚ) (r : Reservoir α) (payload : α)
    (weight kde : ℚ) : Reservoir α :=
  Reservoir.retain { r with drawn := r.drawn + 1 } (rng r.seed r.drawn) payload weight kde

/-- Modelled from the spec: `drain` of `Reservoir.h`: the payloads for the
payload sink and the `(weight, kde)` lines for the weight sink, in the same
order. -/
def Reservoir.drain {α : Type} (r : Reservoir α) : List α × List (ℚ × ℚ) :=
  (r.entries.map Prod.fst, r.entries.map (fun e => (e.2.weight, e.2.kde)))

/-! ## The stream loop (lines 202-250) -/

/-- One call `reservoir.put(payload, weight, KDE)` of the driver. -/
structure Offer where
  payload : String
  weight : ℚ
  kde : ℚ
  deriving DecidableEq, Repr

/-- The variables of the loop, with a record of the calls made so far:
`pulls` counts the parser calls, `extractions` lists the calls of `getHash`
(its `k` and its sequence), `queries` lists the calls of `query_and_add`
(its argument and the value it returned), `offers1` and `offers2` list the
calls of `put` on the two reservoirs. -/
structure LoopState (σ : Type) where
  t : Int
  sketch : σ
  pulls : Nat
  extractions : List (Int × String)
  queries : List (List Int × ℚ)
  offers1 : List Offer
  offers2 : List Offer
  reservoir1 : Reservoir String
  reservoir2 : Reservoir String

/-- Lines 190-202: the state in which the loop is entered.  `reservoir2` is
`Reservoir(sample_size)` for paired input and stays the `NULL`-initialised
object otherwise.  The source hands the reservoirs no seed (it calls
`srand(seed)`, line 178); that the generator of each reservoir starts from
the seed of the run is the specification's reservoir. -/
def initialState {σ : Type} (P : Parts σ) (cfg : Config) : LoopState σ :=
  { t := 0
    sketch := P.RACE cfg.race_repetitions cfg.race_range
    pulls := 0
    extractions := []
    queries := []
    offers1 := []
    offers2 := []
    reservoir1 := { capacity := cfg.sample_size, seed := cfg.seed, drawn := 0, entries := [] }
    reservoir2 :=
      { capacity := if cfg.format = .PE then cfg.sample_size else 0, seed := cfg.seed,
        drawn := 0, entries := [] } }

/-- Lines 213-247: one iteration of the loop in which the parser is
called. -/
def step {σ : Type} (P : Parts σ) (cfg : Config) (w : World) (s : LoopState σ) :
    Event → LoopState σ
  | .skip => { s with pulls := s.pulls + 1 }
  | .record r =>
    let raw_hashes :=
      P.getHash (cfg.race_repetitions * cfg.hash_power) cfg.seed cfg.kmer_k r.sequence
    let rehashes := P.rehash raw_hashes cfg.race_repetitions cfg.hash_power
    let answer := P.query_and_add s.sketch rehashes
    let KDE : ℚ := answer.1
    let t := s.t + 1
    let weight : ℚ := (t : ℚ) / (KDE + 1)
    let s1 : LoopState σ :=
      { s with
        t := t
        sketch := answer.2
        pulls := s.pulls + 1
        extractions := s.extractions ++ [(cfg.kmer_k, r.sequence)]
        queries := s.queries ++ [(rehashes, KDE)]
        offers1 := s.offers1 ++ [{ payload := r.chunk1, weight := weight, kde := KDE }]
        reservoir1 := s.reservoir1.put w.rng r.chunk1 weight KDE }
    match cfg.format with
    | .PE =>
      { s1 with
        offers2 := s.offers2 ++ [{ payload := r.chunk2, weight := weight, kde := KDE }]
        reservoir2 := s.reservoir2.put w.rng r.chunk2 weight KDE }
    | _ => s1

/-- Lines 204-250: the loop over the parser results, from state `s`. -/
def streamLoop {σ : Type} (P : Parts σ) (cfg : Config) (w : World) (s : LoopState σ)
    (events : List Event) : LoopState σ :=
  events.foldl (step P cfg w) s

/-- The parser results the loop meets: those of the input when it could be
opened; on a stream that was never opened `peek` gives `EOF` without
`eof()`, the parser is called once and the loop condition ends the loop. -/
def loopEvents (w : World) : List Event :=
  if w.input_opens then w.events else [w.failed_read]

/-! ## `main` -/

/-- The observable course of a run of `main`: how it ended, the paths
opened for reading and for writing, the capacities of the reservoirs
constructed with `Reservoir(sample_size)`, the arguments of the
constructors of the MinHash extractor (`m`, `seed`) and of the RACE sketch
(`R`, `B`) if they were called, the state in which the stream loop ended
(`none` if it was never entered), and what the drains wrote to the two
sample files and the two weight files. -/
structure Run (σ : Type) where
  status : Status
  inputs : List String
  outputs : List String
  constructed : List Int
  extractor : Option (Int × Nat)
  sketch : Option (Int × Int)
  final : Option (LoopState σ)
  sample1 : List String
  weights1 : List (ℚ × ℚ)
  sample2 : List String
  weights2 : List (ℚ × ℚ)

/-- A return or an abnormal end before the stream loop, with what had been
opened and constructed by then. -/
structure Early where
  status : Status
  inputs : List String
  outputs : List String
  constructed : List Int
  deriving DecidableEq, Repr

/-- A run that ends before the stream loop. -/
def Run.early {σ : Type} (e : Early) : Run σ :=
  { status := e.status, inputs := e.inputs, outputs := e.outputs,
    constructed := e.constructed,
    extractor := none, sketch := none, final := none,
    sample1 := [], weights1 := [], sample2 := [], weights2 := [] }

/-- Lines 38-176: the configuration as parsed, before it is validated,
together with what lines 82-106 did on the way.  With a null output path
the run ends abnormally after the first input was opened. -/
def parseArgs (clock : Nat) (argv : List String) : Except Early (Config × Setup) :=
  match positional argv with
  | .error st => .error ⟨st, [], [], []⟩
  | .ok (sample_size, format) =>
    match openStreams argv format sample_size with
    | none => .error ⟨.aborted, [argv.getD 3 ""], [], []⟩
    | some su =>
      match fileExtension (su.argv.getD 3 "") with
      | .error st => .error ⟨st, su.inputs, su.outputs, su.constructed⟩
      | .ok file_extension =>
        match scanOptions su.argv (defaultOptions clock) with
        | .error st => .error ⟨st, su.inputs, su.outputs, su.constructed⟩
        | .ok o =>
          .ok ({ sample_size := sample_size, format := format,
                 file_extension := file_extension, race_range := o.race_range,
                 race_repetitions := o.race_repetitions, hash_power := o.hash_power,
                 kmer_k := o.kmer_k, seed := o.seed }, su)

/-- Lines 187-261: the sampler proper, run on a validated configuration. -/
def sample {σ : Type} (P : Parts σ) (w : World) (cfg : Config) (su : Setup) : Run σ :=
  let s := streamLoop P cfg w (initialState P cfg) (loopEvents w)
  let d1 := s.reservoir1.drain
  let d2 := s.reservoir2.drain
  { status := .returned 0
    inputs := su.inputs
    outputs := su.outputs
    constructed := su.constructed
    extractor := some (cfg.race_repetitions * cfg.hash_power, cfg.seed)
    sketch := some (cfg.race_repetitions, cfg.race_range)
    final := some s
    sample1 := d1.1
    weights1 := d1.2
    sample2 := if cfg.format = .PE then d2.1 else []
    weights2 := if cfg.format = .PE then d2.2 else [] }

/-- The function `main` of `diversesample.cpp`. -/
def main {σ : Type} (P : Parts σ) (w : World) (argv : List String) : Run σ :=
  match parseArgs w.clock argv with
  | .error e => Run.early e
  | .ok (cfg, su) =>
    if invalid cfg then Run.early ⟨.returned (-1), su.inputs, su.outputs, su.constructed⟩
    else sample P w cfg su

/-! ## Notions used to state the properties -/

/-- The records among the parser results, in stream order. -/
def accepted : List Event → List Read
  | [] => []
  | .record r :: es => r :: accepted es
  | .skip :: es => accepted es

/-- The bucket vector the driver computes for a sequence (lines 226-230). -/
def bucketsOf {σ : Type} (P : Parts σ) (cfg : Config) (sequence : String) : List Int :=
  P.rehash (P.getHash (cfg.race_repetitions * cfg.hash_power) cfg.seed cfg.kmer_k sequence)
    cfg.race_repetitions cfg.hash_power

/-- The calls of `query_and_add` for the given sequences in order, starting
from `sketch`: the argument of each call and the value it returns, every
call seeing the sketch the previous one left. -/
def answers {σ : Type} (P : Parts σ) (cfg : Config) : σ → List String → List (List Int × ℚ)
  | _, [] => []
  | sketch, q :: qs =>
    let a := P.query_and_add sketch (bucketsOf P cfg q)
    (bucketsOf P cfg q, a.1) :: answers P cfg a.2 qs

/-- The weight and the kde of an offer. -/
def Offer.scores (o : Offer) : ℚ × ℚ := (o.weight, o.kde)

/-- Two loop states that differ at most in the number of parser calls. -/
def SameButPulls {σ : Type} (a b : LoopState σ) : Prop :=
  a.t = b.t ∧ a.sketch = b.sketch ∧ a.extractions = b.extractions ∧ a.queries = b.queries ∧
  a.offers1 = b.offers1 ∧ a.offers2 = b.offers2 ∧
  a.reservoir1 = b.reservoir1 ∧ a.reservoir2 = b.reservoir2

/-- The arguments are C strings: none holds a terminator. -/
def CStrings (argv : List String) : Prop :=
  ∀ a ∈ argv, NUL ∉ a.data

/-- Number of bytes the strings of `args` occupy, terminators included. -/
def blockLength : List String → Nat
  | [] => 0
  | a :: rest => a.length + 1 + blockLength rest

/-- Number of leading arguments up to and including the first output path:
6 for paired input, 5 otherwise. -/
def throughFirstOutput (argv : List String) : Nat :=
  if argv.getD 2 "" = "PE" then 6 else 5

/-- Number of bytes after the terminator of the first output path that the
calls of `strcat` overwrite: `weights` and a terminator for one call,
`weights.weights` and a terminator for the two calls of paired input. -/
def overwritten (argv : List String) : Nat :=
  if argv.getD 2 "" = "PE" then 16 else 8

/-- The bytes that stand between the first output path and the terminator
once the calls of `strcat` are done: `.weights` after line 95,
`.weights.weights` after lines 102 and 103 (the second call appends to the
`weights` the first one left in the place of the second output path). -/
def appended (format : Format) : List Char :=
  if format = .PE then ".weights.weights".data else ".weights".data

/-- The names of the optional arguments the loop of line 134 tests for. -/
def optionNames : List String := ["--range", "--reps", "--hashes", "--k", "--seed"]

/-- The names of the four optional arguments that lines 182-185 check. -/
def parameterNames : List String := ["--range", "--reps", "--hashes", "--k"]

/-- The parsed value that belongs to a name of `parameterNames`. -/
def Options.parameter (o : Options) (name : String) : Int :=
  if name = "--range" then o.race_range
  else if name = "--reps" then o.race_repetitions
  else if name = "--hashes" then o.hash_power
  else o.kmer_k

/-- The value of the configuration that belongs to a name of
`parameterNames`. -/
def Config.parameter (c : Config) (name : String) : Int :=
  if name = "--range" then c.race_range
  else if name = "--reps" then c.race_repetitions
  else if name = "--hashes" then c.hash_power
  else c.kmer_k

/-! ## Sample instances, for concrete evaluation -/

/-- A small extractor and rehasher to run the driver on concrete inputs:
every slot of the MinHash vector is the length of the sequence, and every
bucket is the first slot of its block; the sketch is the one of the
specification. -/
def sampleParts : Parts Sketch :=
  { getHash := fun m _ _ sequence => List.replicate m.toNat (sequence.length : Int)
    rehash := fun raw R p => (List.range R.toNat).map (fun i => raw.getD (i * p.toNat) 0)
    RACE := Sketch.RACE
    query_and_add := Sketch.query_and_add }

/-- The parameters of the end-to-end scenarios of the specification
(`--seed 1 --range 16 --reps 4 --hashes 1`, k-mer size 3), for paired input
and a sample of one. -/
def pairedConfig : Config :=
  { sample_size := 1, format := .PE, file_extension := "fastq", race_range := 16,
    race_repetitions := 4, hash_power := 1, kmer_k := 3, seed := 1 }

/-- The same parameters for single-end input. -/
def singleConfig : Config :=
  { sample_size := 1, format := .SE, file_extension := "fastq", race_range := 16,
    race_repetitions := 4, hash_power := 1, kmer_k := 3, seed := 1 }

/-- A pair of reads. -/
def pairA : Read := { sequence := "AAAATTTT", chunk1 := "a/1", chunk2 := "a/2" }

/-- A second pair, with the same sequence. -/
def pairB : Read := { sequence := "AAAATTTT", chunk1 := "b/1", chunk2 := "b/2" }

/-- A single-end run without options. -/
def plainArgv : List String :=
  ["diversesample", "2", "SE", "in.fastq", "out.fastq"]

/-- A single-end run with the k-mer size spelled `-k`, after a first option
that takes up the bytes `strcat` overwrites. -/
def singleDashArgv : List String :=
  ["diversesample", "2", "SE", "in.fastq", "out.fastq", "--range", "16", "-k", "3"]

/-- The same run with the k-mer size spelled `--k`. -/
def doubleDashArgv : List String :=
  ["diversesample", "2", "SE", "in.fastq", "out.fastq", "--range", "16", "--k", "3"]

/-- A single-end run with a sample size of zero. -/
def zeroSampleArgv : List String :=
  ["diversesample", "0", "SE", "in.fastq", "out.fastq"]

/-- A single-end run with zero repetitions. -/
def zeroRepsArgv : List String :=
  ["diversesample", "2", "SE", "in.fastq", "out.fastq", "--range", "16", "--reps", "0"]

/-- A single-end run with zero repetitions given directly after the
output path. -/
def overwrittenRepsArgv : List String :=
  ["diversesample", "2", "SE", "in.fastq", "out.fastq", "--reps", "0"]

/-- A single-end run with the k-mer size given directly after the output
path. -/
def overwrittenKArgv : List String :=
  ["diversesample", "2", "SE", "in.fastq", "out.fastq", "--k", "3"]

/-- A generator whose first draw is 1/4 and whose later draws are 1/2,
whatever the seed. -/
def lowHigh (_seed n : Nat) : ℚ := if n = 0 then 1 / 4 else 1 / 2

/-- A world in which the input yields `pairA`, a skip and `pairB`. -/
def sampleWorld : World :=
  { clock := 1, input_opens := true, events := [.record pairA, .skip, .record pairB],
    failed_read := .skip, rng := lowHigh }

/-- The driver with the RACE sketch of the specification and any extractor
and rehasher. -/
def withSketch (getHash : Int → Nat → Int → String → List Int)
    (rehash : List Int → Int → Int → List Int) : Parts Sketch :=
  { getHash := getHash, rehash := rehash, RACE := Sketch.RACE,
    query_and_add := Sketch.query_and_add }


/-! ## The stream loop: general facts -/

section Loop

variable {σ : Type} (P : Parts σ) (cfg : Config) (w : World)

theorem streamLoop_nil (s : LoopState σ) : streamLoop P cfg w s [] = s := rfl

theorem streamLoop_cons (s : LoopState σ) (e : Event) (es : List Event) :
    streamLoop P cfg w s (e :: es) = streamLoop P cfg w (step P cfg w s e) es := rfl

theorem streamLoop_append (s : LoopState σ) (es fs : List Event) :
    streamLoop P cfg w s (es ++ fs) = streamLoop P cfg w (streamLoop P cfg w s es) fs := by
  simp [streamLoop, List.foldl_append]

/-- A property of the loop state that every iteration keeps holds when the
loop ends. -/
theorem streamLoop_induct (Inv : LoopState σ → Prop)
    (hstep : ∀ s e, Inv s → Inv (step P cfg w s e)) :
    ∀ (es : List Event) (s : LoopState σ), Inv s → Inv (streamLoop P cfg w s es) := by
  intro es
  induction es with
  | nil => intro s h; exact h
  | cons e es ih => intro s h; exact ih _ (hstep s e h)

theorem step_skip (s : LoopState σ) :
    step P cfg w s .skip = { s with pulls := s.pulls + 1 } := rfl

theorem step_record_t (s : LoopState σ) (r : Read) :
    (step P cfg w s (.record r)).t = s.t + 1 := by
  unfold step; cases cfg.format <;> rfl

theorem step_record_sketch (s : LoopState σ) (r : Read) :
    (step P cfg w s (.record r)).sketch
      = (P.query_and_add s.sketch (bucketsOf P cfg r.sequence)).2 := by
  unfold step; cases cfg.format <;> rfl

theorem step_record_extractions (s : LoopState σ) (r : Read) :
    (step P cfg w s (.record r)).extractions = s.extractions ++ [(cfg.kmer_k, r.sequence)] := by
  unfold step; cases cfg.format <;> rfl

theorem step_record_queries (s : LoopState σ) (r : Read) :
    (step P cfg w s (.record r)).queries
      = s.queries ++ [(bucketsOf P cfg r.sequence,
          (P.query_and_add s.sketch (bucketsOf P cfg r.sequence)).1)] := by
  unfold step; cases cfg.format <;> rfl

theorem step_record_offers1 (s : LoopState σ) (r : Read) :
    (step P cfg w s (.record r)).offers1
      = s.offers1 ++ [Offer.mk r.chunk1
          (((s.t + 1 : Int) : ℚ)
            / ((P.query_and_add s.sketch (bucketsOf P cfg r.sequence)).1 + 1))
          (P.query_and_add s.sketch (bucketsOf P cfg r.sequence)).1] := by
  unfold step; cases cfg.format <;> rfl

theorem step_record_offers2_PE (h : cfg.format = .PE) (s : LoopState σ) (r : Read) :
    (step P cfg w s (.record r)).offers2
      = s.offers2 ++ [Offer.mk r.chunk2
          (((s.t + 1 : Int) : ℚ)
            / ((P.query_and_add s.sketch (bucketsOf P cfg r.sequence)).1 + 1))
          (P.query_and_add s.sketch (bucketsOf P cfg r.sequence)).1] := by
  unfold step; rw [h]; rfl

theorem step_record_offers2_single (h : cfg.format ≠ .PE) (s : LoopState σ) (r : Read) :
    (step P cfg w s (.record r)).offers2 = s.offers2 := by
  unfold step; cases hf : cfg.format <;> first | rfl | exact absurd hf h

end Loop
section LoopFacts

variable {σ : Type} (P : Parts σ) (cfg : Config) (w : World)

theorem streamLoop_t (es : List Event) : ∀ s : LoopState σ,
    (streamLoop P cfg w s es).t = s.t + ((accepted es).length : Int) := by
  induction es with
  | nil => intro s; simp [streamLoop_nil, accepted]
  | cons e es ih =>
    intro s
    rw [streamLoop_cons, ih]
    cases e with
    | record r => rw [step_record_t]; simp [accepted]; ring
    | skip => simp [step_skip, accepted]

theorem streamLoop_queries (es : List Event) : ∀ s : LoopState σ,
    (streamLoop P cfg w s es).queries
      = s.queries ++ answers P cfg s.sketch ((accepted es).map Read.sequence) := by
  induction es with
  | nil => intro s; simp [streamLoop_nil, accepted, answers]
  | cons e es ih =>
    intro s
    rw [streamLoop_cons, ih]
    cases e with
    | record r =>
      rw [step_record_queries, step_record_sketch]
      simp [accepted, answers]
    | skip => simp [step_skip, accepted]

theorem streamLoop_extractions (es : List Event) : ∀ s : LoopState σ,
    (streamLoop P cfg w s es).extractions
      = s.extractions ++ (accepted es).map (fun r => (cfg.kmer_k, r.sequence)) := by
  induction es with
  | nil => intro s; simp [streamLoop_nil, accepted]
  | cons e es ih =>
    intro s
    rw [streamLoop_cons, ih]
    cases e with
    | record r => rw [step_record_extractions]; simp [accepted]
    | skip => simp [step_skip, accepted]

theorem streamLoop_offers1_payload (es : List Event) : ∀ s : LoopState σ,
    (streamLoop P cfg w s es).offers1.map Offer.payload
      = s.offers1.map Offer.payload ++ (accepted es).map Read.chunk1 := by
  induction es with
  | nil => intro s; simp [streamLoop_nil, accepted]
  | cons e es ih =>
    intro s
    rw [streamLoop_cons, ih]
    cases e with
    | record r => rw [step_record_offers1]; simp [accepted]
    | skip => simp [step_skip, accepted]

theorem streamLoop_pulls (es : List Event) : ∀ s : LoopState σ,
    (streamLoop P cfg w s es).pulls = s.pulls + es.length := by
  induction es with
  | nil => intro s; simp [streamLoop_nil]
  | cons e es ih =>
    intro s
    rw [streamLoop_cons, ih]
    cases e with
    | record r => unfold step; cases cfg.format <;> simp <;> omega
    | skip => simp [step_skip]; omega

/-- The loop invariant behind the weight formula: the counter equals the
number of offers made, each offer has its query, and the offer at position
`i` carries the returned kde and the weight `(i + 1) / (kde + 1)`. -/
theorem weight_invariant_step (s : LoopState σ) (e : Event)
    (h : s.t = (s.offers1.length : Int) ∧ s.queries.length = s.offers1.length ∧
      ∀ (i : Nat) (o : Offer), s.offers1[i]? = some o →
        ∃ q, s.queries[i]? = some q ∧ o.kde = q.2 ∧ o.weight = ((i : ℚ) + 1) / (q.2 + 1)) :
    (step P cfg w s e).t = ((step P cfg w s e).offers1.length : Int) ∧
    (step P cfg w s e).queries.length = (step P cfg w s e).offers1.length ∧
      ∀ (i : Nat) (o : Offer), (step P cfg w s e).offers1[i]? = some o →
        ∃ q, (step P cfg w s e).queries[i]? = some q ∧ o.kde = q.2
          ∧ o.weight = ((i : ℚ) + 1) / (q.2 + 1) := by
  obtain ⟨ht, hq, hall⟩ := h
  cases e with
  | skip => exact ⟨ht, hq, hall⟩
  | record r =>
    rw [step_record_t, step_record_queries, step_record_offers1]
    refine ⟨by simp [ht], by simp [hq], ?_⟩
    intro i o hio
    rcases Nat.lt_or_ge i s.offers1.length with hlt | hge
    · rw [List.getElem?_append_left hlt] at hio
      obtain ⟨q, hq1, hq2, hq3⟩ := hall i o hio
      refine ⟨q, ?_, hq2, hq3⟩
      rw [List.getElem?_append_left (by omega)]
      exact hq1
    · rw [List.getElem?_append_right hge] at hio
      have hi : i = s.offers1.length := by
        by_contra hne
        have : 0 < i - s.offers1.length := by omega
        obtain ⟨k, hk⟩ := Nat.exists_eq_succ_of_ne_zero (Nat.pos_iff_ne_zero.mp this)
        rw [hk] at hio
        simp at hio
      subst hi
      simp at hio
      subst hio
      refine ⟨(bucketsOf P cfg r.sequence,
          (P.query_and_add s.sketch (bucketsOf P cfg r.sequence)).1), ?_, rfl, ?_⟩
      · rw [List.getElem?_append_right (by omega)]
        simp [hq]
      · simp [ht]

end LoopFacts

/-! ## Skipped records -/

theorem sameButPulls_step {σ : Type} (P : Parts σ) (cfg : Config) (w : World)
    (a b : LoopState σ) (e : Event) (h : SameButPulls a b) :
    SameButPulls (step P cfg w a e) (step P cfg w b e) := by
  obtain ⟨h1, h2, h3, h4, h5, h6, h7, h8⟩ := h
  cases e with
  | skip => exact ⟨h1, h2, h3, h4, h5, h6, h7, h8⟩
  | record r =>
    unfold SameButPulls step
    cases cfg.format <;> simp [h1, h2, h3, h4, h5, h6, h7, h8]

theorem sameButPulls_streamLoop {σ : Type} (P : Parts σ) (cfg : Config) (w : World)
    (es : List Event) : ∀ a b : LoopState σ, SameButPulls a b →
    SameButPulls (streamLoop P cfg w a es) (streamLoop P cfg w b es) := by
  induction es with
  | nil => intro a b h; exact h
  | cons e es ih =>
    intro a b h
    rw [streamLoop_cons, streamLoop_cons]
    exact ih _ _ (sameButPulls_step P cfg w a b e h)

/-- C6: an iteration in which the parser reports skip leaves the counter
`t`, the sketch, the record of extractions and queries, the offers and both
reservoirs as they were (only the parser call is counted), and the stream
with that skip at any position produces the same extractions, queries,
counter, sketch and offers to both reservoirs as the stream without it. -/
theorem skipped_record_leaves_no_trace {σ : Type} (P : Parts σ) (cfg : Config) (w : World)
    (s : LoopState σ) (before after : List Event) :
    SameButPulls (step P cfg w s .skip) s ∧
    (step P cfg w s .skip).pulls = s.pulls + 1 ∧
    SameButPulls (streamLoop P cfg w (initialState P cfg) (before ++ .skip :: after))
      (streamLoop P cfg w (initialState P cfg) (before ++ after)) ∧
    (streamLoop P cfg w (initialState P cfg) (before ++ .skip :: after)).offers1
      = (streamLoop P cfg w (initialState P cfg) (before ++ after)).offers1 ∧
    (streamLoop P cfg w (initialState P cfg) (before ++ .skip :: after)).offers2
      = (streamLoop P cfg w (initialState P cfg) (before ++ after)).offers2 := by
  have hskip : ∀ a : LoopState σ, SameButPulls (step P cfg w a .skip) a :=
    fun a => ⟨rfl, rfl, rfl, rfl, rfl, rfl, rfl, rfl⟩
  have hall : SameButPulls
      (streamLoop P cfg w (initialState P cfg) (before ++ .skip :: after))
      (streamLoop P cfg w (initialState P cfg) (before ++ after)) := by
    rw [streamLoop_append, streamLoop_append, streamLoop_cons]
    exact sameButPulls_streamLoop P cfg w after _ _ (hskip _)
  exact ⟨hskip s, rfl, hall, hall.2.2.2.2.1, hall.2.2.2.2.2.1⟩

/-! ## Paired input -/

theorem streamLoop_offers2_payload {σ : Type} (P : Parts σ) (cfg : Config) (w : World)
    (h : cfg.format = .PE) (es : List Event) : ∀ s : LoopState σ,
    (streamLoop P cfg w s es).offers2.map Offer.payload
      = s.offers2.map Offer.payload ++ (accepted es).map Read.chunk2 := by
  induction es with
  | nil => intro s; simp [streamLoop_nil, accepted]
  | cons e es ih =>
    intro s
    rw [streamLoop_cons, ih]
    cases e with
    | record r => rw [step_record_offers2_PE P cfg w h]; simp [accepted]
    | skip => simp [step_skip, accepted]

theorem streamLoop_scores {σ : Type} (P : Parts σ) (cfg : Config) (w : World)
    (h : cfg.format = .PE) (es : List Event) (s : LoopState σ)
    (hs : s.offers1.map Offer.scores = s.offers2.map Offer.scores) :
    (streamLoop P cfg w s es).offers1.map Offer.scores
      = (streamLoop P cfg w s es).offers2.map Offer.scores := by
  refine streamLoop_induct P cfg w
    (fun s => s.offers1.map Offer.scores = s.offers2.map Offer.scores) ?_ es s hs
  intro a e ha
  cases e with
  | skip => exact ha
  | record r =>
    rw [step_record_offers1, step_record_offers2_PE P cfg w h]
    simp [ha, Offer.scores]

theorem streamLoop_second_idle {σ : Type} (P : Parts σ) (cfg : Config) (w : World)
    (h : cfg.format ≠ .PE) (es : List Event) (s : LoopState σ) :
    (streamLoop P cfg w s es).offers2 = s.offers2 ∧
    (streamLoop P cfg w s es).reservoir2 = s.reservoir2 := by
  refine streamLoop_induct P cfg w
    (fun a => a.offers2 = s.offers2 ∧ a.reservoir2 = s.reservoir2) ?_ es s ⟨rfl, rfl⟩
  intro a e ha
  cases e with
  | skip => exact ha
  | record r =>
    unfold step
    cases hf : cfg.format
    · exact ha
    · exact ha
    · exact absurd hf h

/-! ## The weight formula -/

/-- C1: for every input stream, the counter `t` starts at 0 and ends at the
number of accepted records; the calls of `query_and_add` are exactly those
for the accepted records in order, each on the sketch left by the previous
one; and the weight offered to reservoir 1 (and, for paired input, to
reservoir 2) for the `(i+1)`-th accepted record is `(i + 1) / (kde + 1)`,
where `kde` is the value that record's `query_and_add` returned and is also
the kde offered. -/
theorem offered_weight_is_count_over_kde_plus_one {σ : Type} (P : Parts σ) (cfg : Config)
    (w : World) (events : List Event) :
    (initialState P cfg).t = 0 ∧
    (streamLoop P cfg w (initialState P cfg) events).t = ((accepted events).length : Int) ∧
    (streamLoop P cfg w (initialState P cfg) events).queries
      = answers P cfg (P.RACE cfg.race_repetitions cfg.race_range)
          ((accepted events).map Read.sequence) ∧
    (streamLoop P cfg w (initialState P cfg) events).offers1.length
      = (accepted events).length ∧
    (∀ (i : Nat) (o : Offer),
      (streamLoop P cfg w (initialState P cfg) events).offers1[i]? = some o →
      ∃ q, (streamLoop P cfg w (initialState P cfg) events).queries[i]? = some q ∧
        o.kde = q.2 ∧ o.weight = ((i : ℚ) + 1) / (q.2 + 1)) ∧
    (∀ (i : Nat) (o : Offer),
      (streamLoop P cfg w (initialState P cfg) events).offers2[i]? = some o →
      ∃ q, (streamLoop P cfg w (initialState P cfg) events).queries[i]? = some q ∧
        o.kde = q.2 ∧ o.weight = ((i : ℚ) + 1) / (q.2 + 1)) := by
  have hinv := streamLoop_induct P cfg w
    (fun s => s.t = (s.offers1.length : Int) ∧ s.queries.length = s.offers1.length ∧
      ∀ (i : Nat) (o : Offer), s.offers1[i]? = some o →
        ∃ q, s.queries[i]? = some q ∧ o.kde = q.2 ∧ o.weight = ((i : ℚ) + 1) / (q.2 + 1))
    (fun s e h => weight_invariant_step P cfg w s e h) events (initialState P cfg)
    (by simp [initialState])
  have ht := streamLoop_t P cfg w events (initialState P cfg)
  have hq := streamLoop_queries P cfg w events (initialState P cfg)
  have hlen : (streamLoop P cfg w (initialState P cfg) events).offers1.length
      = (accepted events).length := by
    have h1 := hinv.1
    rw [ht] at h1
    have h0 : (initialState P cfg).t = 0 := rfl
    rw [h0] at h1
    omega
  refine ⟨rfl, ?_, ?_, hlen, hinv.2.2, ?_⟩
  · rw [ht]; simp [initialState]
  · rw [hq]; simp [initialState]
  · intro i o hio
    by_cases hPE : cfg.format = .PE
    · have hsc := streamLoop_scores P cfg w hPE events (initialState P cfg) rfl
      have h2 : ((streamLoop P cfg w (initialState P cfg) events).offers2.map
          Offer.scores)[i]? = some o.scores := by
        rw [List.getElem?_map, hio]; rfl
      rw [← hsc, List.getElem?_map] at h2
      cases h1 : (streamLoop P cfg w (initialState P cfg) events).offers1[i]? with
      | none => rw [h1] at h2; cases h2
      | some o1 =>
        rw [h1] at h2
        simp only [Option.map_some', Option.some.injEq] at h2
        obtain ⟨q, hq1, hq2, hq3⟩ := hinv.2.2 i o1 h1
        have hw : o1.weight = o.weight := congrArg Prod.fst h2
        have hk : o1.kde = o.kde := congrArg Prod.snd h2
        exact ⟨q, hq1, by rw [← hk]; exact hq2, by rw [← hw]; exact hq3⟩
    · have h2 := (streamLoop_second_idle P cfg w hPE events (initialState P cfg)).1
      rw [h2] at hio
      simp [initialState] at hio

/-- C3: for paired input, after any sequence of parser results the driver
has made one MinHash extraction and one `query_and_add` per accepted pair,
has offered the first chunks to reservoir 1 and the second chunks to
reservoir 2 in stream order, and the two offer sequences have the same
length and agree position by position on (weight, kde).  For single-end
and interleaved input reservoir 2 receives no offer. -/
theorem paired_offers_share_weight_and_kde {σ : Type} (P : Parts σ) (cfg : Config)
    (w : World) (events : List Event) :
    (cfg.format = .PE →
      (streamLoop P cfg w (initialState P cfg) events).extractions.length
        = (accepted events).length ∧
      (streamLoop P cfg w (initialState P cfg) events).queries.length
        = (accepted events).length ∧
      (streamLoop P cfg w (initialState P cfg) events).offers1.map Offer.payload
        = (accepted events).map Read.chunk1 ∧
      (streamLoop P cfg w (initialState P cfg) events).offers2.map Offer.payload
        = (accepted events).map Read.chunk2 ∧
      (streamLoop P cfg w (initialState P cfg) events).offers1.length
        = (streamLoop P cfg w (initialState P cfg) events).offers2.length ∧
      (streamLoop P cfg w (initialState P cfg) events).offers1.map Offer.scores
        = (streamLoop P cfg w (initialState P cfg) events).offers2.map Offer.scores) ∧
    (cfg.format ≠ .PE →
      (streamLoop P cfg w (initialState P cfg) events).offers2 = [] ∧
      (streamLoop P cfg w (initialState P cfg) events).reservoir2.entries = [] ∧
      (streamLoop P cfg w (initialState P cfg) events).offers1.map Offer.payload
        = (accepted events).map Read.chunk1) := by
  have h1 := streamLoop_offers1_payload P cfg w events (initialState P cfg)
  have hx := streamLoop_extractions P cfg w events (initialState P cfg)
  have hq := streamLoop_queries P cfg w events (initialState P cfg)
  have hans : ∀ (qs : List String) (sk : σ), (answers P cfg sk qs).length = qs.length := by
    intro qs
    induction qs with
    | nil => intro sk; rfl
    | cons q qs ih => intro sk; simp [answers, ih]
  constructor
  · intro hPE
    have h2 := streamLoop_offers2_payload P cfg w hPE events (initialState P cfg)
    have hsc := streamLoop_scores P cfg w hPE events (initialState P cfg) rfl
    refine ⟨?_, ?_, ?_, ?_, ?_, hsc⟩
    · rw [hx]; simp [initialState]
    · rw [hq]; simp [initialState, hans]
    · rw [h1]; simp [initialState]
    · rw [h2]; simp [initialState]
    · have := congrArg List.length hsc
      simpa using this
  · intro hne
    have h2 := streamLoop_second_idle P cfg w hne events (initialState P cfg)
    refine ⟨?_, ?_, ?_⟩
    · rw [h2.1]; rfl
    · rw [h2.2]; rfl
    · rw [h1]; simp [initialState]

/-! ## One record repeated -/

theorem invalid_false_iff (c : Config) :
    invalid c = false ↔ 0 < c.sample_size ∧ 0 < c.race_range ∧ 0 < c.race_repetitions
      ∧ 0 < c.hash_power ∧ 0 < c.kmer_k := by
  unfold invalid
  simp only [Bool.or_eq_false_iff, decide_eq_false_iff_not, not_le]
  tauto

/-- One `query_and_add` of the specified sketch on a bucket vector all of
whose addressed counters hold `j`: it returns `j` and leaves them at
`j + 1`. -/
theorem Sketch.query_and_add_uniform (sk : Sketch) (b : List Int) (j : Nat) (hR : 0 < sk.R)
    (h : ∀ i, i < sk.R.toNat → sk.C i (b.getD i 0) = j) :
    (sk.query_and_add b).1 = (j : ℚ) ∧ (sk.query_and_add b).2.R = sk.R ∧
    ∀ i, i < sk.R.toNat → (sk.query_and_add b).2.C i (b.getD i 0) = j + 1 := by
  refine ⟨?_, rfl, ?_⟩
  · have hsum : ((List.range sk.R.toNat).map (fun i => sk.C i (b.getD i 0))).sum
        = sk.R.toNat * j := by
      have hmap : (List.range sk.R.toNat).map (fun i => sk.C i (b.getD i 0))
          = (List.range sk.R.toNat).map (fun _ => j) := by
        apply List.map_congr_left
        intro i hi
        exact h i (List.mem_range.mp hi)
      rw [hmap]
      simp
    have hcast : ((sk.R.toNat : Int) : ℚ) = (sk.R : ℚ) := by
      rw [Int.toNat_of_nonneg (le_of_lt hR)]
    have hne : (sk.R : ℚ) ≠ 0 := by
      have : (0 : ℚ) < (sk.R : ℚ) := by exact_mod_cast hR
      exact ne_of_gt this
    show ((((List.range sk.R.toNat).map (fun i => sk.C i (b.getD i 0))).sum : Nat) : ℚ)
      / (sk.R : ℚ) = (j : ℚ)
    rw [hsum]
    push_cast
    have : ((sk.R.toNat : Nat) : ℚ) = (sk.R : ℚ) := by
      rw [← hcast]; norm_cast
    rw [this]
    field_simp
  · intro i hi
    show (if i < sk.R.toNat ∧ b.getD i 0 = b.getD i 0 then sk.C i (b.getD i 0) + 1
      else sk.C i (b.getD i 0)) = j + 1
    rw [if_pos ⟨hi, rfl⟩, h i hi]

theorem same_record_loop (getHash : Int → Nat → Int → String → List Int)
    (rehash : List Int → Int → Int → List Int) (cfg : Config) (w : World) (r : Read)
    (hR : 0 < cfg.race_repetitions) (n : Nat) :
    (streamLoop (withSketch getHash rehash) cfg w (initialState (withSketch getHash rehash) cfg)
        (List.replicate n (.record r))).t = (n : Int) ∧
    (streamLoop (withSketch getHash rehash) cfg w (initialState (withSketch getHash rehash) cfg)
        (List.replicate n (.record r))).sketch.R = cfg.race_repetitions ∧
    (∀ i, i < cfg.race_repetitions.toNat →
      (streamLoop (withSketch getHash rehash) cfg w
        (initialState (withSketch getHash rehash) cfg)
        (List.replicate n (.record r))).sketch.C i
          ((bucketsOf (withSketch getHash rehash) cfg r.sequence).getD i 0) = n) ∧
    (streamLoop (withSketch getHash rehash) cfg w (initialState (withSketch getHash rehash) cfg)
        (List.replicate n (.record r))).offers1
      = (List.range n).map (fun j : Nat => Offer.mk r.chunk1 1 (j : ℚ)) ∧
    (streamLoop (withSketch getHash rehash) cfg w (initialState (withSketch getHash rehash) cfg)
        (List.replicate n (.record r))).queries.map Prod.snd
      = (List.range n).map (fun j : Nat => (j : ℚ)) := by
  induction n with
  | zero =>
    refine ⟨rfl, rfl, ?_, rfl, rfl⟩
    intro i _
    rfl
  | succ n ih =>
    obtain ⟨ht, hRk, hC, ho, hq⟩ := ih
    rw [List.replicate_succ', streamLoop_append, streamLoop_cons, streamLoop_nil]
    generalize streamLoop (withSketch getHash rehash) cfg w
      (initialState (withSketch getHash rehash) cfg) (List.replicate n (.record r)) = s at *
    have hRs : 0 < s.sketch.R := by rw [hRk]; exact hR
    have hu := Sketch.query_and_add_uniform s.sketch
      (bucketsOf (withSketch getHash rehash) cfg r.sequence) n hRs (by rw [hRk]; exact hC)
    have hqa : (withSketch getHash rehash).query_and_add = Sketch.query_and_add := rfl
    rw [step_record_t, step_record_sketch, step_record_offers1, step_record_queries, hqa]
    refine ⟨?_, ?_, ?_, ?_, ?_⟩
    · rw [ht]; push_cast; ring
    · rw [hu.2.1, hRk]
    · intro i hi
      have := hu.2.2 i (by rw [hRk]; exact hi)
      rw [this]
    · rw [ho, hu.1, ht, List.range_succ, List.map_append]
      have hw : ((n : ℚ) + 1) / ((n : ℚ) + 1) = 1 := by
        have : ((n : ℚ) + 1) ≠ 0 := by positivity
        field_simp
      simp [hw]
    · rw [List.map_append, hq, hu.1, List.range_succ, List.map_append]
      simp

/-- C2: with the RACE sketch of the specification and a validated
configuration, an input that consists of one record `n` times makes
`query_and_add` return 0, 1, ..., n-1 in order and every offer, to either
reservoir, carry the weight 1 (and the kde just returned). -/
theorem repeated_record_kde_counts_and_weight_is_one
    (getHash : Int → Nat → Int → String → List Int)
    (rehash : List Int → Int → Int → List Int) (cfg : Config) (w : World) (r : Read) (n : Nat)
    (hvalid : invalid cfg = false) :
    (streamLoop (withSketch getHash rehash) cfg w (initialState (withSketch getHash rehash) cfg)
        (List.replicate n (.record r))).queries.map Prod.snd
      = (List.range n).map (fun j : Nat => (j : ℚ)) ∧
    (streamLoop (withSketch getHash rehash) cfg w (initialState (withSketch getHash rehash) cfg)
        (List.replicate n (.record r))).offers1
      = (List.range n).map (fun j : Nat => Offer.mk r.chunk1 1 (j : ℚ)) ∧
    ∀ o ∈ (streamLoop (withSketch getHash rehash) cfg w
        (initialState (withSketch getHash rehash) cfg)
        (List.replicate n (.record r))).offers2, o.weight = 1 := by
  have hR : 0 < cfg.race_repetitions := ((invalid_false_iff cfg).mp hvalid).2.2.1
  obtain ⟨_, _, _, ho, hq⟩ := same_record_loop getHash rehash cfg w r hR n
  refine ⟨hq, ho, ?_⟩
  intro o hmem
  by_cases hPE : cfg.format = .PE
  · have hsc := streamLoop_scores (withSketch getHash rehash) cfg w hPE
      (List.replicate n (.record r)) (initialState (withSketch getHash rehash) cfg) rfl
    have h2 : o.scores ∈ (streamLoop (withSketch getHash rehash) cfg w
        (initialState (withSketch getHash rehash) cfg)
        (List.replicate n (.record r))).offers2.map Offer.scores :=
      List.mem_map_of_mem _ hmem
    rw [← hsc, ho] at h2
    simp only [List.map_map, List.mem_map, List.mem_range] at h2
    obtain ⟨j, _, hj⟩ := h2
    have := congrArg Prod.fst hj
    simpa [Offer.scores] using this.symm
  · have h2 := (streamLoop_second_idle (withSketch getHash rehash) cfg w hPE
      (List.replicate n (.record r)) (initialState (withSketch getHash rehash) cfg)).1
    rw [h2] at hmem
    simp [initialState] at hmem

/-- Witness for C2: the validated paired configuration, one pair fed three
times. -/
theorem repeated_record_witness :
    invalid pairedConfig = false ∧
    (streamLoop (withSketch sampleParts.getHash sampleParts.rehash) pairedConfig sampleWorld
        (initialState (withSketch sampleParts.getHash sampleParts.rehash) pairedConfig)
        (List.replicate 3 (.record pairA))).offers1
      = (List.range 3).map (fun j : Nat => Offer.mk pairA.chunk1 1 (j : ℚ)) :=
  ⟨by decide, (repeated_record_kde_counts_and_weight_is_one sampleParts.getHash
    sampleParts.rehash pairedConfig sampleWorld pairA 3 (by decide)).2.1⟩

/-- Witness for C3: a paired configuration on a stream of two pairs and a
skip. -/
theorem paired_offers_witness :
    pairedConfig.format = .PE ∧
    (streamLoop sampleParts pairedConfig sampleWorld (initialState sampleParts pairedConfig)
        sampleWorld.events).offers1.map Offer.scores
      = (streamLoop sampleParts pairedConfig sampleWorld (initialState sampleParts pairedConfig)
        sampleWorld.events).offers2.map Offer.scores :=
  ⟨rfl, ((paired_offers_share_weight_and_kde sampleParts pairedConfig sampleWorld
    sampleWorld.events).1 rfl).2.2.2.2.2⟩

/-! ## The reservoirs of a paired run -/

theorem takeWhile_stop (c : Char) (a b : List Char) (h : c ∉ a) :
    (a ++ c :: b).takeWhile (fun x => x ≠ c) = a := by
  induction a with
  | nil => simp [List.takeWhile]
  | cons y ys ih =>
    have hy : y ≠ c := fun hc => h (by rw [hc]; exact List.mem_cons_self _ _)
    simp only [List.cons_append, List.takeWhile_cons, ne_eq, hy, not_false_eq_true,
      decide_True, if_true]
    rw [ih (fun hc => h (List.mem_cons_of_mem _ hc))]

/-- A pointer at a string that is followed by its terminator reads that
string. -/
theorem cstr_of_drop (mem : List Char) (off : Nat) (a rest : List Char)
    (hd : mem.drop off = a ++ NUL :: rest) (ha : NUL ∉ a) : cstr mem off = String.mk a := by
  unfold cstr
  rw [hd, takeWhile_stop NUL a rest ha]

/-- A pointer reads nothing or a string that starts with the byte it
points at. -/
theorem cstr_head (mem : List Char) (off : Nat) (c : Char) (t : List Char)
    (hd : mem.drop off = c :: t) :
    (cstr mem off).data = [] ∨ (cstr mem off).data.head? = some c := by
  unfold cstr
  rw [hd]
  by_cases hc : c = NUL
  · left; simp [List.takeWhile, hc]
  · right; simp [List.takeWhile, hc]

/-- Bytes after the ones stored are what they were. -/
theorem poke_drop (mem bytes : List Char) (pos e : Nat) (hpos : pos ≤ mem.length)
    (he : pos + bytes.length ≤ e) : (poke mem pos bytes).drop e = mem.drop e := by
  obtain ⟨k, hk⟩ := Nat.exists_eq_add_of_le he
  have hl : (mem.take pos ++ bytes).length = pos + bytes.length := by
    simp [List.length_take, Nat.min_eq_left hpos]
  have h1 : (mem.take pos ++ bytes ++ mem.drop (pos + bytes.length)).drop
      ((mem.take pos ++ bytes).length + k) = (mem.drop (pos + bytes.length)).drop k :=
    List.drop_append k
  unfold poke
  rw [hl] at h1
  rw [hk, h1, List.drop_drop]

/-- Two memories that agree from `e` on are read alike by a pointer at or
after `e`. -/
theorem cstr_congr (mem1 mem : List Char) (e off : Nat) (h : mem1.drop e = mem.drop e)
    (he : e ≤ off) : cstr mem1 off = cstr mem off := by
  unfold cstr
  have h1 : mem1.drop off = (mem1.drop e).drop (off - e) := by
    rw [List.drop_drop]; congr 1; omega
  have h2 : mem.drop off = (mem.drop e).drop (off - e) := by
    rw [List.drop_drop]; congr 1; omega
  rw [h1, h2, h]

theorem argBlock_append (a b : List String) :
    argBlock (a ++ b) = argBlock a ++ argBlock b := by
  induction a with
  | nil => rfl
  | cons x xs ih => simp [argBlock, ih]

theorem argBlock_length (a : List String) : (argBlock a).length = blockLength a := by
  induction a with
  | nil => rfl
  | cons x xs ih =>
    simp only [argBlock, blockLength, List.length_append, List.length_cons, ih]
    show x.length + (blockLength xs + 1) = x.length + 1 + blockLength xs
    omega

theorem argOffsets_append (a b : List String) : ∀ off,
    argOffsets off (a ++ b) = argOffsets off a ++ argOffsets (off + blockLength a) b := by
  induction a with
  | nil => intro off; simp [argOffsets, blockLength]
  | cons x xs ih =>
    intro off
    show off :: argOffsets (off + x.length + 1) (xs ++ b)
      = off :: (argOffsets (off + x.length + 1) xs
          ++ argOffsets (off + (x.length + 1 + blockLength xs)) b)
    rw [ih]
    have : off + x.length + 1 + blockLength xs = off + (x.length + 1 + blockLength xs) := by
      omega
    rw [this]

theorem argOffsets_ge (l : List String) : ∀ off q, q ∈ argOffsets off l → off ≤ q := by
  induction l with
  | nil => intro off q h; simp [argOffsets] at h
  | cons x xs ih =>
    intro off q h
    simp only [argOffsets, List.mem_cons] at h
    rcases h with h | h
    · omega
    · have := ih _ _ h
      omega

/-- Pointers at C strings that lie in memory as they were laid out read
these strings. -/
theorem reread_untouched (suf : List String) (hc : CStrings suf) :
    ∀ (mem : List Char) (off : Nat) (tail : List Char),
      mem.drop off = argBlock suf ++ tail → (argOffsets off suf).map (cstr mem) = suf := by
  induction suf with
  | nil => intro mem off tail _; rfl
  | cons a rest ih =>
    intro mem off tail hd
    have ha : NUL ∉ a.data := hc a (List.mem_cons_self _ _)
    have hrest : CStrings rest := fun x hx => hc x (List.mem_cons_of_mem _ hx)
    have hd1 : mem.drop off = a.data ++ NUL :: (argBlock rest ++ tail) := by
      rw [hd]; simp [argBlock]
    have hnext : mem.drop (off + a.length + 1) = argBlock rest ++ tail := by
      have : off + a.length + 1 = off + (a.length + 1) := by omega
      rw [this, ← List.drop_drop, hd1]
      have hl : a.length + 1 = (a.data ++ [NUL]).length := by
        rw [List.length_append]; rfl
      rw [hl, show a.data ++ NUL :: (argBlock rest ++ tail)
        = (a.data ++ [NUL]) ++ (argBlock rest ++ tail) by simp, List.drop_left]
    simp only [argOffsets, List.map_cons]
    rw [cstr_of_drop mem off a.data _ hd1 ha, ih hrest mem _ tail hnext]
theorem poke_append (front tail bytes : List Char) :
    poke (front ++ tail) front.length bytes = front ++ bytes ++ tail.drop bytes.length := by
  unfold poke
  rw [List.take_left, List.drop_append]

/-- The memory after `strcat` on a C string `a` that lies after `front`:
the bytes of `src` and a terminator stand where the terminator of `a` and
the bytes after it stood. -/
theorem strcat_at (front a tail : List Char) (src : String) (ha : NUL ∉ a) :
    strcat (front ++ (a ++ NUL :: tail)) front.length src
      = front ++ (a ++ (src.data ++ NUL :: tail.drop src.length)) := by
  unfold strcat
  have hc : cstr (front ++ (a ++ NUL :: tail)) front.length = String.mk a :=
    cstr_of_drop _ _ a tail (by rw [List.drop_left]) ha
  rw [hc]
  have hl : front.length + (String.mk a).length = (front ++ a).length := by
    rw [List.length_append]; rfl
  rw [hl, show front ++ (a ++ NUL :: tail) = (front ++ a) ++ (NUL :: tail) by simp,
    poke_append]
  have hd : (NUL :: tail).drop (src.data ++ [NUL]).length = tail.drop src.length := by
    rw [List.length_append]
    show (NUL :: tail).drop (src.data.length + 1) = tail.drop src.data.length
    rfl
  rw [hd]
  simp

/-- The memory from the first output path on, once the calls of `strcat`
are done. -/
theorem memory_after_strcat (out : String) (rest : List String) (hout : NUL ∉ out.data) :
    strcat (argBlock (out :: rest)) 0 ".weights"
      = out.data ++ (appended .SE ++ NUL :: (argBlock rest).drop (appended .SE).length) ∧
    strcat (strcat (argBlock (out :: rest)) 0 ".weights") (out.length + 1) ".weights"
      = out.data ++ (appended .PE ++ NUL :: (argBlock rest).drop (appended .PE).length) := by
  have h1 : strcat (argBlock (out :: rest)) 0 ".weights"
      = out.data ++ (".weights".data ++ NUL :: (argBlock rest).drop 8) := by
    have := strcat_at [] out.data (argBlock rest) ".weights" hout
    simpa [argBlock] using this
  constructor
  · rw [h1]; rfl
  · rw [h1]
    have h2 := strcat_at (out.data ++ ['.']) "weights".data ((argBlock rest).drop 8)
      ".weights" (by decide)
    have hl : (out.data ++ ['.']).length = out.length + 1 := by
      rw [List.length_append]; rfl
    rw [hl] at h2
    have hm : out.data ++ (".weights".data ++ NUL :: (argBlock rest).drop 8)
        = (out.data ++ ['.']) ++ ("weights".data ++ NUL :: (argBlock rest).drop 8) := by
      simp
    rw [hm, h2, List.drop_drop]
    have h16 : 8 + (".weights" : String).length = 16 := by decide
    rw [h16]
    simp [appended]

/-- The arguments after lines 82-106, for an argument vector split at its
first output path: the arguments before it, the output path with what was
appended to it, and the later arguments as their pointers read them from
the overwritten bytes. -/
theorem openStreams_shape (front : List String) (out : String) (rest : List String)
    (f : Format) (S : Int) (su : Setup)
    (hlen : front.length = if f = .PE then 5 else 4) (hrest : f = .PE → rest ≠ [])
    (hout : NUL ∉ out.data) (h : openStreams (front ++ out :: rest) f S = some su) :
    su.argv = front ++ (String.mk (out.data ++ appended f)
      :: (argOffsets (out.length + 1) rest).map
          (cstr (out.data ++ (appended f ++ NUL :: (argBlock rest).drop (appended f).length)))) := by
  have hmem := memory_after_strcat out rest hout
  have hfirst : ∀ W : List Char, NUL ∉ W → ∀ tail : List Char,
      cstr (out.data ++ (W ++ NUL :: tail)) 0 = String.mk (out.data ++ W) := by
    intro W hW tail
    apply cstr_of_drop _ 0 (out.data ++ W) tail (by simp)
    intro hc
    rcases List.mem_append.mp hc with h1 | h1
    · exact hout h1
    · exact hW h1
  unfold openStreams at h
  cases f with
  | PE =>
    have hlen : front.length = 5 := by rw [hlen]; rfl
    have hne := hrest rfl
    obtain ⟨x, xs, hx⟩ := List.exists_cons_of_ne_nil hne
    simp only [Option.some.injEq] at h
    rw [← h]
    simp only
    have hdrop : (front ++ out :: rest).drop 5 = out :: rest := by
      rw [← hlen, List.drop_left]
    have htake : (front ++ out :: rest).take 5 = front := by
      rw [← hlen, List.take_left]
    rw [hdrop, htake]
    have hp0 : (argOffsets 0 (out :: rest)).getD 0 0 = 0 := rfl
    have hp1 : (argOffsets 0 (out :: rest)).getD 1 0 = out.length + 1 := by
      rw [hx]
      simp [argOffsets]
    rw [hp0, hp1, hmem.2]
    show front ++ (argOffsets 0 (out :: rest)).map _ = _
    simp only [argOffsets, List.map_cons, Nat.zero_add]
    rw [hfirst (appended .PE) (by decide)]
  | SE =>
    have hlen : front.length = 4 := by rw [hlen]; rfl
    have h4 : (front ++ out :: rest)[4]? = some out := by
      rw [← hlen, List.getElem?_append_right (Nat.le_refl _)]; simp
    rw [h4] at h
    simp only [Option.some.injEq] at h
    rw [← h]
    have hdrop : (front ++ out :: rest).drop 4 = out :: rest := by
      rw [← hlen, List.drop_left]
    have htake : (front ++ out :: rest).take 4 = front := by
      rw [← hlen, List.take_left]
    rw [hdrop, htake]
    have hp0 : (argOffsets 0 (out :: rest)).getD 0 0 = 0 := rfl
    rw [hp0, hmem.1]
    simp only [argOffsets, List.map_cons, Nat.zero_add]
    rw [hfirst (appended .SE) (by decide)]
  | I =>
    have hlen : front.length = 4 := by rw [hlen]; rfl
    have h4 : (front ++ out :: rest)[4]? = some out := by
      rw [← hlen, List.getElem?_append_right (Nat.le_refl _)]; simp
    rw [h4] at h
    simp only [Option.some.injEq] at h
    rw [← h]
    have hdrop : (front ++ out :: rest).drop 4 = out :: rest := by
      rw [← hlen, List.drop_left]
    have htake : (front ++ out :: rest).take 4 = front := by
      rw [← hlen, List.take_left]
    rw [hdrop, htake]
    have hp0 : (argOffsets 0 (out :: rest)).getD 0 0 = 0 := rfl
    rw [hp0, hmem.1, show appended Format.I = appended Format.SE from rfl]
    simp only [argOffsets, List.map_cons, Nat.zero_add]
    rw [hfirst (appended .SE) (by decide)]
/-- After the bytes `strcat` wrote, the memory is what it was. -/
theorem overlay_drop_after (out W B : List Char) (k : Nat) (hk : W.length ≤ k) :
    (out ++ (W ++ NUL :: B.drop W.length)).drop (out.length + 1 + k) = B.drop k := by
  obtain ⟨j, hj⟩ := Nat.exists_eq_add_of_le hk
  have hform : out ++ (W ++ NUL :: B.drop W.length)
      = (out ++ (W ++ [NUL])) ++ B.drop W.length := by simp
  have hl : out.length + 1 + k = (out ++ (W ++ [NUL])).length + j := by
    simp only [List.length_append, List.length_cons, List.length_nil]
    omega
  rw [hform, hl, List.drop_append, List.drop_drop, hj]

/-- At a byte `strcat` wrote stands one of the bytes it wrote. -/
theorem overlay_drop_inside (out W B : List Char) (k : Nat) (hk : k < W.length) :
    ∃ c t, (out ++ (W ++ NUL :: B.drop W.length)).drop (out.length + 1 + k) = c :: t
      ∧ c ∈ W ++ [NUL] := by
  have hform : out ++ (W ++ NUL :: B.drop W.length)
      = out ++ ((W ++ [NUL]) ++ B.drop W.length) := by simp
  have h1 : (out ++ ((W ++ [NUL]) ++ B.drop W.length)).drop (out.length + (1 + k))
      = ((W ++ [NUL]) ++ B.drop W.length).drop (1 + k) := List.drop_append (1 + k)
  have hle : 1 + k ≤ (W ++ [NUL]).length := by
    simp only [List.length_append, List.length_cons, List.length_nil]; omega
  have hne : (W ++ [NUL]).drop (1 + k) ≠ [] := by
    intro hc
    have := List.drop_eq_nil_iff.mp hc
    simp only [List.length_append, List.length_cons, List.length_nil] at this
    omega
  obtain ⟨c, t, hct⟩ := List.exists_cons_of_ne_nil hne
  refine ⟨c, t ++ B.drop W.length, ?_, ?_⟩
  · rw [hform, show out.length + 1 + k = out.length + (1 + k) by omega, h1,
      List.drop_append_of_le_length hle, hct]
    rfl
  · exact List.mem_of_mem_drop (by rw [hct]; exact List.mem_cons_self _ _)

theorem argBlock_cstrings_sub {l : List String} (h : CStrings l) (a : String) (ha : a ∈ l) :
    NUL ∉ a.data := h a ha

theorem optionName_head (a : String) (ha : a ∈ optionNames) : a.data.head? = some '-' := by
  simp only [optionNames, List.mem_cons, List.mem_singleton, List.not_mem_nil, or_false] at ha
  rcases ha with h | h | h | h | h <;> subst h <;> rfl

/-- The arguments `strcat` did not reach are read as they were passed. -/
theorem reread_suffix (out W : List Char) (mid suf : List String) (hc : CStrings suf)
    (hW : W.length ≤ blockLength mid) :
    ∃ pre1 : List String,
      (argOffsets (out.length + 1) (mid ++ suf)).map
        (cstr (out ++ (W ++ NUL :: (argBlock (mid ++ suf)).drop W.length))) = pre1 ++ suf := by
  rw [argOffsets_append, List.map_append]
  refine ⟨(argOffsets (out.length + 1) mid).map
    (cstr (out ++ (W ++ NUL :: (argBlock (mid ++ suf)).drop W.length))), ?_⟩
  congr 1
  apply reread_untouched suf hc _ _ []
  rw [overlay_drop_after out W _ (blockLength mid) hW, argBlock_append, ← argBlock_length,
    List.drop_left, List.append_nil]

/-- An option name that a pointer reads after the calls of `strcat` is an
argument that was passed. -/
theorem reread_option (out W : List Char) (rest : List String) (hc : CStrings rest)
    (hW : '-' ∉ W ++ [NUL]) (s : String) (hs : s ∈ optionNames)
    (hmem : s ∈ (argOffsets (out.length + 1) rest).map
      (cstr (out ++ (W ++ NUL :: (argBlock rest).drop W.length)))) : s ∈ rest := by
  obtain ⟨q, hq, hsq⟩ := List.mem_map.mp hmem
  have hge := argOffsets_ge rest _ q hq
  obtain ⟨k, hk⟩ := Nat.exists_eq_add_of_le hge
  by_cases hin : k < W.length
  · obtain ⟨c, t, hd, hcW⟩ := overlay_drop_inside out W (argBlock rest) k hin
    rw [← hk] at hd
    have hhead := optionName_head s hs
    rcases cstr_head _ q c t hd with h0 | h1
    · rw [hsq] at h0
      rw [h0] at hhead
      cases hhead
    · rw [hsq, hhead] at h1
      simp only [Option.some.injEq] at h1
      rw [← h1] at hcW
      exact absurd hcW hW
  · have hold : (argOffsets (out.length + 1) rest).map (cstr (out ++ NUL :: argBlock rest))
        = rest :=
      reread_untouched rest hc _ _ [] (by
        rw [show out ++ NUL :: argBlock rest = (out ++ [NUL]) ++ argBlock rest by simp]
        have : out.length + 1 = (out ++ [NUL]).length := by simp
        rw [this, List.drop_left, List.append_nil])
    have hsame : cstr (out ++ (W ++ NUL :: (argBlock rest).drop W.length)) q
        = cstr (out ++ NUL :: argBlock rest) q := by
      apply cstr_congr _ _ (out.length + 1 + W.length) q _ (by omega)
      rw [overlay_drop_after out W _ W.length (Nat.le_refl _)]
      rw [show out ++ NUL :: argBlock rest = (out ++ [NUL]) ++ argBlock rest by simp]
      have : out.length + 1 + W.length = (out ++ [NUL]).length + W.length := by simp
      rw [this, List.drop_append]
    rw [← hsq, hsame]
    have : cstr (out ++ NUL :: argBlock rest) q
        ∈ (argOffsets (out.length + 1) rest).map (cstr (out ++ NUL :: argBlock rest)) :=
      List.mem_map_of_mem _ hq
    rw [hold] at this
    exact this
/-! ## Argument processing: general facts -/

/-- What a successful `parseArgs` went through. -/
theorem parseArgs_ok (clock : Nat) (argv : List String) (cfg : Config) (su : Setup)
    (h : parseArgs clock argv = .ok (cfg, su)) :
    positional argv = .ok (cfg.sample_size, cfg.format) ∧
    openStreams argv cfg.format cfg.sample_size = some su ∧
    fileExtension (su.argv.getD 3 "") = .ok cfg.file_extension ∧
    ∃ o, scanOptions su.argv (defaultOptions clock) = .ok o ∧
      cfg.race_range = o.race_range ∧ cfg.race_repetitions = o.race_repetitions ∧
      cfg.hash_power = o.hash_power ∧ cfg.kmer_k = o.kmer_k ∧ cfg.seed = o.seed := by
  unfold parseArgs at h
  cases hp : positional argv with
  | error st => rw [hp] at h; simp at h
  | ok p =>
    obtain ⟨sample_size, format⟩ := p
    rw [hp] at h
    simp only at h
    cases ho : openStreams argv format sample_size with
    | none => rw [ho] at h; simp at h
    | some su1 =>
      rw [ho] at h
      simp only at h
      cases hf : fileExtension (su1.argv.getD 3 "") with
      | error st => rw [hf] at h; simp at h
      | ok ext =>
        rw [hf] at h
        simp only at h
        cases hs : scanOptions su1.argv (defaultOptions clock) with
        | error st => rw [hs] at h; simp at h
        | ok o =>
          rw [hs] at h
          simp only [Except.ok.injEq, Prod.mk.injEq] at h
          obtain ⟨hc, hsu⟩ := h
          subst hc
          subst hsu
          exact ⟨rfl, ho, hf, o, hs, rfl, rfl, rfl, rfl, rfl⟩

theorem positional_ok (argv : List String) (S : Int) (f : Format)
    (h : positional argv = .ok (S, f)) :
    4 ≤ argv.length ∧ stoi (argv.getD 1 "") = some S ∧
    (f = .PE ↔ argv.getD 2 "" = "PE") ∧ (f = .PE → 7 ≤ argv.length) ∧
    (argv.getD 2 "" = "SE" ∨ argv.getD 2 "" = "I" ∨ argv.getD 2 "" = "PE") := by
  unfold positional at h
  by_cases h4 : argv.length < 4
  · rw [if_pos h4] at h; cases h
  · rw [if_neg h4] at h
    cases hs : stoi (argv.getD 1 "") with
    | none => rw [hs] at h; cases h
    | some v =>
      rw [hs] at h
      simp only at h
      by_cases hSE : argv.getD 2 "" = "SE"
      · rw [if_pos hSE] at h
        cases h
        refine ⟨by omega, rfl, ?_, ?_, Or.inl hSE⟩
        · rw [hSE]; constructor
          · intro hc; cases hc
          · intro hc; exact absurd hc (by decide)
        · intro hc; cases hc
      · rw [if_neg hSE] at h
        by_cases hI : argv.getD 2 "" = "I"
        · rw [if_pos hI] at h
          cases h
          refine ⟨by omega, rfl, ?_, ?_, Or.inr (Or.inl hI)⟩
          · rw [hI]; constructor
            · intro hc; cases hc
            · intro hc; exact absurd hc (by decide)
          · intro hc; cases hc
        · rw [if_neg hI] at h
          by_cases hPE : argv.getD 2 "" = "PE"
          · rw [if_pos hPE] at h
            by_cases h7 : argv.length < 7
            · rw [if_pos h7] at h; cases h
            · rw [if_neg h7] at h
              cases h
              exact ⟨by omega, rfl, ⟨fun _ => hPE, fun _ => rfl⟩, fun _ => by omega,
                Or.inr (Or.inr hPE)⟩
          · rw [if_neg hPE] at h; cases h

theorem positional_error (argv : List String) (st : Status)
    (h : positional argv = .error st) : st = .returned (-1) ∨ st = .aborted := by
  unfold positional at h
  by_cases h4 : argv.length < 4
  · rw [if_pos h4] at h; cases h; exact Or.inl rfl
  · rw [if_neg h4] at h
    cases hs : stoi (argv.getD 1 "") with
    | none => rw [hs] at h; cases h; exact Or.inr rfl
    | some v =>
      rw [hs] at h
      simp only at h
      by_cases hSE : argv.getD 2 "" = "SE"
      · rw [if_pos hSE] at h; cases h
      · rw [if_neg hSE] at h
        by_cases hI : argv.getD 2 "" = "I"
        · rw [if_pos hI] at h; cases h
        · rw [if_neg hI] at h
          by_cases hPE : argv.getD 2 "" = "PE"
          · rw [if_pos hPE] at h
            by_cases h7 : argv.length < 7
            · rw [if_pos h7] at h; cases h; exact Or.inl rfl
            · rw [if_neg h7] at h; cases h
          · rw [if_neg hPE] at h; cases h; exact Or.inl rfl

theorem fileExtension_error (filename : String) (st : Status)
    (h : fileExtension filename = .error st) : st = .returned (-1) := by
  unfold fileExtension at h
  cases hd : determineExtension filename with
  | none => rw [hd] at h; cases h; rfl
  | some e =>
    rw [hd] at h
    simp only at h
    by_cases hc : e ≠ "fasta" ∧ e ≠ "fastq"
    · rw [if_pos hc] at h; cases h; rfl
    · rw [if_neg hc] at h; cases h

theorem optionValue_error (rest : List String) (st : Status)
    (h : optionValue rest = .error st) : st = .returned (-1) ∨ st = .aborted := by
  unfold optionValue at h
  cases rest with
  | nil => cases h; exact Or.inl rfl
  | cons v vs =>
    simp only at h
    cases hs : stoi v with
    | none => rw [hs] at h; cases h; exact Or.inr rfl
    | some n => rw [hs] at h; cases h

/-- The five tests of one iteration exclude one another, so the iteration
is a case distinction on the argument. -/
theorem scanArg_eq (a : String) (rest : List String) (o : Options) :
    scanArg a rest o =
      if a = "--range" then (optionValue rest).map (fun v => { o with race_range := v })
      else if a = "--reps" then
        (optionValue rest).map (fun v => { o with race_repetitions := v })
      else if a = "--hashes" then (optionValue rest).map (fun v => { o with hash_power := v })
      else if a = "--k" then (optionValue rest).map (fun v => { o with kmer_k := v })
      else if a = "--seed" then
        (optionValue rest).map (fun v => { o with seed := (v % 2 ^ 32).toNat })
      else .ok o := by
  unfold scanArg
  by_cases h1 : a = "--range"
  · subst h1
    cases optionValue rest <;> simp [bind, Except.bind, Except.map, pure, Except.pure]
  by_cases h2 : a = "--reps"
  · subst h2
    cases optionValue rest <;> simp [bind, Except.bind, Except.map, pure, Except.pure]
  by_cases h3 : a = "--hashes"
  · subst h3
    cases optionValue rest <;> simp [bind, Except.bind, Except.map, pure, Except.pure]
  by_cases h4 : a = "--k"
  · subst h4
    cases optionValue rest <;> simp [bind, Except.bind, Except.map, pure, Except.pure]
  by_cases h5 : a = "--seed"
  · subst h5
    cases optionValue rest <;> simp [bind, Except.bind, Except.map, pure, Except.pure]
  simp [h1, h2, h3, h4, h5, bind, Except.bind, pure, Except.pure]

theorem scanArg_error (a : String) (rest : List String) (o : Options) (st : Status)
    (h : scanArg a rest o = .error st) : st = .returned (-1) ∨ st = .aborted := by
  rw [scanArg_eq] at h
  have key : ∀ (f : Int → Options), (optionValue rest).map f = .error st →
      st = .returned (-1) ∨ st = .aborted := by
    intro f hf
    cases hv : optionValue rest with
    | error e =>
      rw [hv] at hf
      simp only [Except.map, Except.error.injEq] at hf
      subst hf
      exact optionValue_error rest e hv
    | ok v => rw [hv] at hf; simp [Except.map] at hf
  split_ifs at h
  · exact key _ h
  · exact key _ h
  · exact key _ h
  · exact key _ h
  · exact key _ h

theorem scanOptions_error (l : List String) : ∀ (o : Options) (st : Status),
    scanOptions l o = .error st → st = .returned (-1) ∨ st = .aborted := by
  induction l with
  | nil => intro o st h; cases h
  | cons a rest ih =>
    intro o st h
    unfold scanOptions at h
    cases ha : scanArg a rest o with
    | error e =>
      rw [ha] at h
      simp only [Except.error.injEq] at h
      subst h
      exact scanArg_error a rest o e ha
    | ok o1 =>
      rw [ha] at h
      exact ih o1 st h

/-- A successful scan of `pre ++ l` ends with a successful scan of `l`. -/
theorem scanOptions_append_ok (pre l : List String) : ∀ (o o1 : Options),
    scanOptions (pre ++ l) o = .ok o1 → ∃ o0, scanOptions l o0 = .ok o1 := by
  induction pre with
  | nil => intro o o1 h; exact ⟨o, h⟩
  | cons a pre ih =>
    intro o o1 h
    rw [List.cons_append] at h
    unfold scanOptions at h
    cases ha : scanArg a (pre ++ l) o with
    | error e => rw [ha] at h; cases h
    | ok o2 =>
      rw [ha] at h
      exact ih o2 o1 h

theorem scanOptions_cons_ok (a : String) (rest : List String) (o o1 : Options)
    (h : scanOptions (a :: rest) o = .ok o1) :
    ∃ o2, scanArg a rest o = .ok o2 ∧ scanOptions rest o2 = .ok o1 := by
  unfold scanOptions at h
  cases ha : scanArg a rest o with
  | error e => rw [ha] at h; cases h
  | ok o2 => rw [ha] at h; exact ⟨o2, rfl, h⟩

/-- A string that ends in `.weights` is no option name. -/
theorem weights_suffix_ne (out a : String) (ha : a ∈ optionNames) :
    out ++ ".weights" ≠ a := by
  intro hc
  have hlen := congrArg String.length hc
  rw [String.length_append] at hlen
  simp only [optionNames, List.mem_cons, List.mem_singleton, List.not_mem_nil, or_false] at ha
  have h8 : (".weights" : String).length = 8 := by decide
  rcases ha with h | h | h | h | h <;> subst h
  · have : ("--range" : String).length = 7 := by decide
    omega
  · have : ("--reps" : String).length = 6 := by decide
    omega
  · have : ("--hashes" : String).length = 8 := by decide
    have h0 : out.length = 0 := by omega
    have hout : out = "" := by
      cases out with
      | mk d => cases d with
        | nil => rfl
        | cons c cs => simp [String.length] at h0
    subst hout
    revert hc
    decide
  · have : ("--k" : String).length = 3 := by decide
    omega
  · have : ("--seed" : String).length = 6 := by decide
    omega

/-- An argument vector that passes lines 38-106 splits at its first output
path. -/
theorem openStreams_split (argv : List String) (f : Format) (S : Int) (su : Setup)
    (hpos : positional argv = .ok (S, f)) (h : openStreams argv f S = some su) :
    ∃ front out rest, argv = front ++ out :: rest ∧
      front.length = (if f = .PE then 5 else 4) ∧ (f = .PE → rest ≠ []) := by
  have hp := positional_ok argv S f hpos
  have hsplit : ∀ n, n < argv.length →
      argv = argv.take n ++ argv[n]?.getD "" :: argv.drop (n + 1) ∧ (argv.take n).length = n := by
    intro n hn
    constructor
    · have h1 : argv.drop n = argv[n] :: argv.drop (n + 1) := List.drop_eq_getElem_cons hn
      have h2 : argv[n]?.getD "" = argv[n] := by
        rw [List.getElem?_eq_getElem hn]; rfl
      rw [h2, ← h1, List.take_append_drop]
    · rw [List.length_take]; omega
  cases f with
  | PE =>
    have h7 := hp.2.2.2.1 rfl
    obtain ⟨h1, h2⟩ := hsplit 5 (by omega)
    refine ⟨_, _, _, h1, h2, ?_⟩
    intro _ hc
    have := congrArg List.length hc
    simp only [List.length_drop, List.length_nil] at this
    omega
  | SE =>
    unfold openStreams at h
    cases h4 : argv[4]? with
    | none => rw [h4] at h; cases h
    | some out =>
      have hlt : 4 < argv.length := by
        by_contra hc
        rw [List.getElem?_eq_none (by omega)] at h4
        cases h4
      obtain ⟨h1, h2⟩ := hsplit 4 hlt
      exact ⟨_, _, _, h1, h2, fun hc => by cases hc⟩
  | I =>
    unfold openStreams at h
    cases h4 : argv[4]? with
    | none => rw [h4] at h; cases h
    | some out =>
      have hlt : 4 < argv.length := by
        by_contra hc
        rw [List.getElem?_eq_none (by omega)] at h4
        cases h4
      obtain ⟨h1, h2⟩ := hsplit 4 hlt
      exact ⟨_, _, _, h1, h2, fun hc => by cases hc⟩

theorem appended_ne_option (out : String) (f : Format) (a : String) (ha : a ∈ optionNames) :
    String.mk (out.data ++ appended f) ≠ a := by
  cases f with
  | PE =>
    have h := weights_suffix_ne (out ++ ".weights") a ha
    have he : String.mk (out.data ++ appended .PE) = (out ++ ".weights") ++ ".weights" := by
      apply String.ext
      simp [appended]
    rw [he]; exact h
  | SE =>
    have h := weights_suffix_ne out a ha
    have he : String.mk (out.data ++ appended .SE) = out ++ ".weights" := by
      apply String.ext
      simp [appended]
    rw [he]; exact h
  | I =>
    have h := weights_suffix_ne out a ha
    have he : String.mk (out.data ++ appended .I) = out ++ ".weights" := by
      apply String.ext
      simp [appended]
    rw [he]; exact h

/-- An option name found among the arguments after the calls of `strcat`
is an argument that was passed. -/
theorem openStreams_mem (argv : List String) (f : Format) (S : Int) (su : Setup)
    (hpos : positional argv = .ok (S, f)) (hc : CStrings argv)
    (h : openStreams argv f S = some su) (a : String) (ha : a ∈ optionNames)
    (hmem : a ∈ su.argv) : a ∈ argv := by
  obtain ⟨front, out, rest, hargv, hlen, hrest⟩ := openStreams_split argv f S su hpos h
  subst hargv
  have hout : NUL ∉ out.data := hc out (by simp)
  have hcr : CStrings rest := fun x hx => hc x (by simp [hx])
  rw [openStreams_shape front out rest f S su hlen hrest hout h] at hmem
  rcases List.mem_append.mp hmem with h1 | h1
  · exact List.mem_append_left _ h1
  · rcases List.mem_cons.mp h1 with h2 | h2
    · exact absurd h2.symm (appended_ne_option out f a ha)
    · have hW : '-' ∉ appended f ++ [NUL] := by
        cases f <;> decide
      have := reread_option out.data (appended f) rest hcr hW a ha h2
      exact List.mem_append_right _ (List.mem_cons_of_mem _ this)

/-- Arguments that lie after the bytes `strcat` overwrites are read by the
option scan as they were passed. -/
theorem openStreams_untouched (argv : List String) (f : Format) (S : Int) (su : Setup)
    (front mid suf : List String)
    (hpos : positional argv = .ok (S, f)) (hc : CStrings argv)
    (hargv : argv = front ++ mid ++ suf) (hfront : front.length = throughFirstOutput argv)
    (hover : overwritten argv ≤ blockLength mid)
    (h : openStreams argv f S = some su) : ∃ pre1, su.argv = pre1 ++ suf := by
  have hfmt := (positional_ok argv S f hpos).2.2.1
  have hlenW : (appended f).length = overwritten argv := by
    unfold overwritten appended
    by_cases hPE : f = .PE
    · rw [if_pos hPE, if_pos (hfmt.mp hPE)]; rfl
    · rw [if_neg hPE, if_neg (fun hx => hPE (hfmt.mpr hx))]; rfl
  have hfl : front.length = (if f = .PE then 5 else 4) + 1 := by
    rw [hfront]
    unfold throughFirstOutput
    by_cases hPE : f = .PE
    · rw [if_pos hPE, if_pos (hfmt.mp hPE)]
    · rw [if_neg hPE, if_neg (fun hx => hPE (hfmt.mpr hx))]
  have hne : front ≠ [] := by
    intro hx
    rw [hx] at hfl
    simp at hfl
  have hsn : front = front.dropLast ++ [front.getLast hne] :=
    (List.dropLast_append_getLast hne).symm
  have hdl : front.dropLast.length = if f = .PE then 5 else 4 := by
    rw [List.length_dropLast, hfl]; rfl
  have hshape : argv = front.dropLast ++ front.getLast hne :: (mid ++ suf) := by
    rw [hargv]
    conv_lhs => rw [hsn]
    simp
  have hmidne : f = .PE → mid ++ suf ≠ [] := by
    intro hPE hx
    have hm : mid = [] := (List.append_eq_nil.mp hx).1
    rw [hm] at hover
    unfold overwritten at hover
    rw [if_pos (hfmt.mp hPE)] at hover
    simp [blockLength] at hover
  have hout : NUL ∉ (front.getLast hne).data :=
    hc _ (by rw [hargv]; simp [List.getLast_mem hne])
  have hcs : CStrings suf := fun x hx => hc x (by rw [hargv]; simp [hx])
  rw [hshape] at h
  rw [openStreams_shape front.dropLast (front.getLast hne) (mid ++ suf) f S su hdl hmidne
    hout h]
  obtain ⟨pre1, hpre⟩ := reread_suffix (front.getLast hne).data (appended f) mid suf hcs
    (by rw [hlenW]; exact hover)
  have hpre1 : (argOffsets ((front.getLast hne).length + 1) (mid ++ suf)).map
      (cstr ((front.getLast hne).data ++ (appended f ++ NUL ::
        (argBlock (mid ++ suf)).drop (appended f).length))) = pre1 ++ suf := hpre
  rw [hpre1]
  exact ⟨front.dropLast ++ String.mk ((front.getLast hne).data ++ appended f) :: pre1,
    by simp⟩

/-- The input path lies before the bytes `strcat` writes. -/
theorem openStreams_input (argv : List String) (f : Format) (S : Int) (su : Setup)
    (h : openStreams argv f S = some su) : su.argv.getD 3 "" = argv.getD 3 "" := by
  have key : ∀ (n : Nat) (extra : List String), 4 ≤ n →
      (n ≤ argv.length ∨ extra = []) → (argv.take n ++ extra).getD 3 "" = argv.getD 3 "" := by
    intro n extra hn hor
    by_cases h3 : 3 < argv.length
    · rw [List.getD_append _ _ _ _ (by rw [List.length_take]; omega)]
      simp only [List.getD_eq_getElem?_getD]
      rw [List.getElem?_take_of_lt (by omega)]
    · rcases hor with h1 | h1
      · omega
      · rw [h1, List.append_nil, List.take_of_length_le (by omega)]
  unfold openStreams at h
  cases f with
  | PE =>
    simp only [Option.some.injEq] at h
    rw [← h]
    apply key 5 _ (by omega)
    by_cases h5 : 5 ≤ argv.length
    · exact Or.inl h5
    · right
      have : argv.drop 5 = [] := List.drop_eq_nil_iff.mpr (by omega)
      rw [this]; rfl
  | SE =>
    cases h4 : argv[4]? with
    | none => rw [h4] at h; cases h
    | some out =>
      rw [h4] at h
      simp only [Option.some.injEq] at h
      rw [← h]
      apply key 4 _ (by omega)
      left
      by_contra hc
      rw [List.getElem?_eq_none (by omega)] at h4
      cases h4
  | I =>
    cases h4 : argv[4]? with
    | none => rw [h4] at h; cases h
    | some out =>
      rw [h4] at h
      simp only [Option.some.injEq] at h
      rw [← h]
      apply key 4 _ (by omega)
      left
      by_contra hc
      rw [List.getElem?_eq_none (by omega)] at h4
      cases h4

/-! ## The parsed parameters -/

theorem optionValue_map_ok (rest : List String) (f : Int → Options) (o1 : Options)
    (h : (optionValue rest).map f = .ok o1) : ∃ v, optionValue rest = .ok v ∧ o1 = f v := by
  cases hv : optionValue rest with
  | error e => rw [hv] at h; simp [Except.map] at h
  | ok v =>
    rw [hv] at h
    simp only [Except.map, Except.ok.injEq] at h
    exact ⟨v, rfl, h.symm⟩

theorem parameterNames_cases (name : String) (h : name ∈ parameterNames) :
    name = "--range" ∨ name = "--reps" ∨ name = "--hashes" ∨ name = "--k" := by
  simpa [parameterNames] using h

theorem parameterNames_option (name : String) (h : name ∈ parameterNames) :
    name ∈ optionNames := by
  rcases parameterNames_cases name h with h | h | h | h <;> subst h <;> simp [optionNames]

/-- An iteration at an argument other than `name` keeps the parameter of
that name. -/
theorem scanArg_keeps_parameter (name a : String) (rest : List String) (o o1 : Options)
    (hname : name ∈ parameterNames) (ha : a ≠ name) (h : scanArg a rest o = .ok o1) :
    o1.parameter name = o.parameter name := by
  rw [scanArg_eq] at h
  split_ifs at h with h1 h2 h3 h4 h5
  · obtain ⟨v, _, hv⟩ := optionValue_map_ok rest _ o1 h
    subst hv
    have hn : name ≠ "--range" := fun hc => ha (by rw [h1, hc])
    simp [Options.parameter, hn]
  · obtain ⟨v, _, hv⟩ := optionValue_map_ok rest _ o1 h
    subst hv
    have hn : name ≠ "--reps" := fun hc => ha (by rw [h2, hc])
    simp [Options.parameter, hn]
  · obtain ⟨v, _, hv⟩ := optionValue_map_ok rest _ o1 h
    subst hv
    have hn : name ≠ "--hashes" := fun hc => ha (by rw [h3, hc])
    simp [Options.parameter, hn]
  · obtain ⟨v, _, hv⟩ := optionValue_map_ok rest _ o1 h
    subst hv
    have hn : name ≠ "--k" := fun hc => ha (by rw [h4, hc])
    rcases parameterNames_cases name hname with g | g | g | g
    · subst g; rfl
    · subst g; rfl
    · subst g; rfl
    · exact absurd g hn
  · obtain ⟨v, _, hv⟩ := optionValue_map_ok rest _ o1 h
    subst hv
    rfl
  · cases h
    rfl

/-- The iteration at `name` followed by a value that parses sets the
parameter of that name. -/
theorem scanArg_sets_parameter (name v : String) (post : List String) (o o1 : Options)
    (n : Int) (hname : name ∈ parameterNames) (hv : stoi v = some n)
    (h : scanArg name (v :: post) o = .ok o1) : o1.parameter name = n := by
  rw [scanArg_eq] at h
  rcases parameterNames_cases name hname with g | g | g | g <;> subst g <;>
    simp [optionValue, hv, Except.map] at h <;> rw [← h] <;> rfl

theorem scanOptions_keeps_parameter (name : String) (hname : name ∈ parameterNames)
    (l : List String) (hl : name ∉ l) : ∀ (o o1 : Options),
    scanOptions l o = .ok o1 → o1.parameter name = o.parameter name := by
  induction l with
  | nil => intro o o1 h; cases h; rfl
  | cons a rest ih =>
    intro o o1 h
    obtain ⟨o2, h2, h3⟩ := scanOptions_cons_ok a rest o o1 h
    have hne : a ≠ name := fun hc => hl (by rw [← hc]; exact List.mem_cons_self _ _)
    rw [ih (fun hc => hl (List.mem_cons_of_mem _ hc)) o2 o1 h3,
      scanArg_keeps_parameter name a rest o o2 hname hne h2]

theorem parameterName_not_number (name : String) (hname : name ∈ parameterNames) :
    stoi name = none := by
  rcases parameterNames_cases name hname with g | g | g | g <;> subst g <;> decide

theorem parseArgs_parameter (clock : Nat) (argv : List String) (cfg : Config) (su : Setup)
    (h : parseArgs clock argv = .ok (cfg, su)) :
    ∃ o, scanOptions su.argv (defaultOptions clock) = .ok o ∧
      ∀ name, cfg.parameter name = o.parameter name := by
  obtain ⟨_, _, _, o, hs, h1, h2, h3, h4, _⟩ := parseArgs_ok clock argv cfg su h
  refine ⟨o, hs, ?_⟩
  intro name
  unfold Config.parameter Options.parameter
  rw [h1, h2, h3, h4]

/-- A parameter given after the bytes `strcat` overwrites, by the last
occurrence of its option, is the value parsed. -/
theorem parameter_from_argv (clock : Nat) (argv : List String) (cfg : Config) (su : Setup)
    (hp : parseArgs clock argv = .ok (cfg, su)) (hc : CStrings argv)
    (name : String) (hname : name ∈ parameterNames)
    (front mid : List String) (v : String) (post : List String) (n : Int)
    (hargv : argv = front ++ mid ++ name :: v :: post)
    (hfront : front.length = throughFirstOutput argv)
    (hover : overwritten argv ≤ blockLength mid) (hlast : name ∉ post)
    (hv : stoi v = some n) : cfg.parameter name = n := by
  obtain ⟨hpos, ho, _⟩ := parseArgs_ok clock argv cfg su hp
  obtain ⟨o, hs, hpar⟩ := parseArgs_parameter clock argv cfg su hp
  obtain ⟨pre1, hsu⟩ := openStreams_untouched argv cfg.format cfg.sample_size su front mid
    (name :: v :: post) hpos hc hargv hfront hover ho
  rw [hsu] at hs
  obtain ⟨o0, h0⟩ := scanOptions_append_ok pre1 _ _ o hs
  obtain ⟨o2, h2, h3⟩ := scanOptions_cons_ok _ _ o0 o h0
  have hvne : v ≠ name := by
    intro hx
    rw [hx, parameterName_not_number name hname] at hv
    cases hv
  have hnot : name ∉ v :: post := by
    intro hx
    rcases List.mem_cons.mp hx with h | h
    · exact hvne h.symm
    · exact hlast h
  rw [hpar, scanOptions_keeps_parameter name hname _ hnot o2 o h3]
  exact scanArg_sets_parameter name v post o0 o2 n hname hv h2

/-- A parameter whose option is not among the arguments keeps its initial
value of lines 128-131. -/
theorem parameter_default (clock : Nat) (argv : List String) (cfg : Config) (su : Setup)
    (hp : parseArgs clock argv = .ok (cfg, su)) (hc : CStrings argv)
    (name : String) (hname : name ∈ parameterNames) (habs : name ∉ argv) :
    cfg.parameter name = (defaultOptions clock).parameter name := by
  obtain ⟨hpos, ho, _⟩ := parseArgs_ok clock argv cfg su hp
  obtain ⟨o, hs, hpar⟩ := parseArgs_parameter clock argv cfg su hp
  have hmem : name ∉ su.argv := fun hx =>
    habs (openStreams_mem argv _ _ su hpos hc ho name (parameterNames_option name hname) hx)
  rw [hpar, scanOptions_keeps_parameter name hname su.argv hmem _ o hs]

/-! ## `main`: general facts -/

theorem parseArgs_error (clock : Nat) (argv : List String) (e : Early)
    (h : parseArgs clock argv = .error e) :
    e.status = .returned (-1) ∨ e.status = .aborted := by
  unfold parseArgs at h
  cases hp : positional argv with
  | error st =>
    rw [hp] at h
    cases h
    exact positional_error argv st hp
  | ok p =>
    obtain ⟨sample_size, format⟩ := p
    rw [hp] at h
    simp only at h
    cases ho : openStreams argv format sample_size with
    | none => rw [ho] at h; cases h; exact Or.inr rfl
    | some su1 =>
      rw [ho] at h
      simp only at h
      cases hf : fileExtension (su1.argv.getD 3 "") with
      | error st =>
        rw [hf] at h
        cases h
        exact Or.inl (fileExtension_error _ st hf)
      | ok ext =>
        rw [hf] at h
        simp only at h
        cases hs : scanOptions su1.argv (defaultOptions clock) with
        | error st =>
          rw [hs] at h
          cases h
          exact scanOptions_error _ _ st hs
        | ok o => rw [hs] at h; cases h

theorem main_of_error {σ : Type} (P : Parts σ) (w : World) (argv : List String) (e : Early)
    (h : parseArgs w.clock argv = .error e) : main P w argv = Run.early e := by
  unfold main; rw [h]

theorem main_of_invalid {σ : Type} (P : Parts σ) (w : World) (argv : List String)
    (cfg : Config) (su : Setup) (h : parseArgs w.clock argv = .ok (cfg, su))
    (hi : invalid cfg = true) :
    main P w argv
      = Run.early ⟨.returned (-1), su.inputs, su.outputs, su.constructed⟩ := by
  unfold main; rw [h]; simp only; rw [if_pos hi]

theorem main_of_valid {σ : Type} (P : Parts σ) (w : World) (argv : List String)
    (cfg : Config) (su : Setup) (h : parseArgs w.clock argv = .ok (cfg, su))
    (hi : invalid cfg = false) : main P w argv = sample P w cfg su := by
  unfold main; rw [h]; simp only; rw [hi]; rfl

/-- The three ways a run of `main` can go. -/
theorem main_cases {σ : Type} (P : Parts σ) (w : World) (argv : List String) :
    (∃ e : Early, (e.status = .returned (-1) ∨ e.status = .aborted) ∧
      main P w argv = Run.early e) ∨
    (∃ cfg su, parseArgs w.clock argv = .ok (cfg, su) ∧ invalid cfg = false ∧
      main P w argv = sample P w cfg su) := by
  cases hp : parseArgs w.clock argv with
  | error e => exact Or.inl ⟨e, parseArgs_error _ _ e hp, main_of_error P w argv e hp⟩
  | ok p =>
    obtain ⟨cfg, su⟩ := p
    cases hi : invalid cfg with
    | true => exact Or.inl ⟨_, Or.inl rfl, main_of_invalid P w argv cfg su hp hi⟩
    | false => exact Or.inr ⟨cfg, su, rfl, hi, main_of_valid P w argv cfg su hp hi⟩

theorem invalid_true_iff (c : Config) :
    invalid c = true ↔ c.sample_size ≤ 0 ∨ c.race_range ≤ 0 ∨ c.race_repetitions ≤ 0
      ∨ c.hash_power ≤ 0 ∨ c.kmer_k ≤ 0 := by
  unfold invalid
  simp only [Bool.or_eq_true, decide_eq_true_eq]
  tauto

theorem fileExtension_ok (filename e : String) (h : fileExtension filename = .ok e) :
    determineExtension filename = some e ∧ (e = "fasta" ∨ e = "fastq") := by
  unfold fileExtension at h
  cases hd : determineExtension filename with
  | none => rw [hd] at h; cases h
  | some x =>
    rw [hd] at h
    simp only at h
    by_cases hc : x ≠ "fasta" ∧ x ≠ "fastq"
    · rw [if_pos hc] at h; cases h
    · rw [if_neg hc] at h
      cases h
      refine ⟨rfl, ?_⟩
      by_cases h1 : e = "fasta"
      · exact Or.inl h1
      · by_cases h2 : e = "fastq"
        · exact Or.inr h2
        · exact absurd ⟨h1, h2⟩ hc

theorem status_zero_iff {σ : Type} (P : Parts σ) (w : World) (argv : List String) :
    (main P w argv).status = .returned 0 ↔
      ∃ cfg su, parseArgs w.clock argv = .ok (cfg, su) ∧ invalid cfg = false := by
  constructor
  · intro h
    rcases main_cases P w argv with ⟨e, he, hm⟩ | ⟨cfg, su, hp, hi, _⟩
    · rw [hm] at h
      have hs : (Run.early e : Run σ).status = e.status := rfl
      rw [hs] at h
      rcases he with h1 | h1
      · rw [h1] at h; exact absurd h (by decide)
      · rw [h1] at h; cases h
    · exact ⟨cfg, su, hp, hi⟩
  · rintro ⟨cfg, su, hp, hi⟩
    rw [main_of_valid P w argv cfg su hp hi]
    rfl

theorem valid_parameter_positive (cfg : Config) (h : invalid cfg = false) (name : String) :
    0 < cfg.parameter name := by
  obtain ⟨_, h1, h2, h3, h4⟩ := (invalid_false_iff cfg).mp h
  unfold Config.parameter
  split_ifs <;> assumption

/-- A parameter that is not positive, given after the bytes `strcat`
overwrites, keeps `main` from returning 0. -/
theorem nonpositive_parameter_rejected {σ : Type} (P : Parts σ) (w : World)
    (argv : List String) (name : String) (front mid : List String) (v : String)
    (post : List String) (n : Int) (hname : name ∈ parameterNames) (hc : CStrings argv)
    (hargv : argv = front ++ mid ++ name :: v :: post)
    (hfront : front.length = throughFirstOutput argv)
    (hover : overwritten argv ≤ blockLength mid) (hlast : name ∉ post)
    (hv : stoi v = some n) (hn : n ≤ 0) : (main P w argv).status ≠ .returned 0 := by
  intro h0
  obtain ⟨cfg, su, hp, hi⟩ := (status_zero_iff P w argv).mp h0
  have hpar := parameter_from_argv w.clock argv cfg su hp hc name hname front mid v post n
    hargv hfront hover hlast hv
  have := valid_parameter_positive cfg hi name
  omega

/-- C5, as amended: a run that does not return 0 returns -1 or ends
abnormally, and has pulled no record, constructed neither the MinHash
extractor nor the RACE sketch, offered nothing to a reservoir and drained
nothing.  `main` does not return 0 when the sample size parses to a value
that is not positive, nor when the range, the repetitions, the hashes or
the k-mer size is given, after the bytes that `strcat` overwrites and by
the last occurrence of its option, a value that parses and is not
positive.  When the arguments parse to a configuration in which one of the
five is not positive, `main` returns -1, after the streams were opened and
the reservoirs constructed with that sample size. -/
theorem invalid_configuration_rejected_before_the_stream {σ : Type} (P : Parts σ) (w : World)
    (argv : List String) :
    ((main P w argv).status ≠ .returned 0 →
      ((main P w argv).status = .returned (-1) ∨ (main P w argv).status = .aborted) ∧
      (main P w argv).extractor = none ∧ (main P w argv).sketch = none ∧
      (main P w argv).final = none ∧ (main P w argv).sample1 = [] ∧
      (main P w argv).sample2 = []) ∧
    (∀ S : Int, 4 ≤ argv.length → stoi (argv.getD 1 "") = some S → S ≤ 0 →
      (main P w argv).status ≠ .returned 0) ∧
    (∀ (name : String) (front mid : List String) (v : String) (post : List String) (n : Int),
      name ∈ parameterNames → CStrings argv → argv = front ++ mid ++ name :: v :: post →
      front.length = throughFirstOutput argv → overwritten argv ≤ blockLength mid →
      name ∉ post → stoi v = some n → n ≤ 0 →
      (main P w argv).status ≠ .returned 0) ∧
    (∀ cfg su, parseArgs w.clock argv = .ok (cfg, su) →
      (cfg.sample_size ≤ 0 ∨ cfg.race_range ≤ 0 ∨ cfg.race_repetitions ≤ 0
        ∨ cfg.hash_power ≤ 0 ∨ cfg.kmer_k ≤ 0) →
      (main P w argv).status = .returned (-1) ∧
      (main P w argv).outputs = su.outputs ∧
      (main P w argv).constructed = su.constructed ∧
      su.constructed
        = (if cfg.format = .PE then [cfg.sample_size, cfg.sample_size]
           else [cfg.sample_size])) := by
  refine ⟨?_, ?_, ?_, ?_⟩
  · intro hst
    rcases main_cases P w argv with ⟨e, he, hm⟩ | ⟨cfg, su, _, _, hm⟩
    · rw [hm]; exact ⟨he, rfl, rfl, rfl, rfl, rfl⟩
    · rw [hm] at hst; exact absurd rfl hst
  · intro S _ hS hle h0
    obtain ⟨cfg, su, hp, hi⟩ := (status_zero_iff P w argv).mp h0
    have hpos := (positional_ok argv _ _ (parseArgs_ok _ _ _ _ hp).1).2.1
    rw [hS] at hpos
    simp only [Option.some.injEq] at hpos
    have := ((invalid_false_iff cfg).mp hi).1
    omega
  · intro name front mid v post n hname hc hargv hfront hover hlast hv hn
    exact nonpositive_parameter_rejected P w argv name front mid v post n hname hc hargv
      hfront hover hlast hv hn
  · intro cfg su hp hbad
    have hm := main_of_invalid P w argv cfg su hp ((invalid_true_iff cfg).mpr hbad)
    rw [hm]
    refine ⟨rfl, rfl, rfl, ?_⟩
    have ho := (parseArgs_ok _ _ _ _ hp).2.1
    unfold openStreams at ho
    cases hf : cfg.format with
    | PE =>
      rw [hf] at ho
      simp only [Option.some.injEq] at ho
      rw [← ho]; rfl
    | SE =>
      rw [hf] at ho
      simp only at ho
      cases h4 : argv[4]? with
      | none => rw [h4] at ho; cases ho
      | some out =>
        rw [h4] at ho
        simp only [Option.some.injEq] at ho
        rw [← ho]; rfl
    | I =>
      rw [hf] at ho
      simp only at ho
      cases h4 : argv[4]? with
      | none => rw [h4] at ho; cases ho
      | some out =>
        rw [h4] at ho
        simp only [Option.some.injEq] at ho
        rw [← ho]; rfl

theorem cstrings_of_all (argv : List String)
    (h : argv.all (fun a => !a.data.contains NUL) = true) : CStrings argv := by
  intro a ha
  have := List.all_eq_true.mp h a ha
  simpa using this

/-- Counterexample to C5 as stated: with a sample size of 0 `main` returns
-1, but by then the output file and its weights file have been opened and
`Reservoir(sample_size)` has been constructed; and with `--reps 0` directly
after the output path `main` returns 0, having built the sketch with 10
repetitions, because `strcat` has overwritten `--reps` with `weights`
before the options are scanned. -/
theorem reservoir_constructed_before_rejection :
    (main sampleParts sampleWorld zeroSampleArgv).status = .returned (-1) ∧
    (main sampleParts sampleWorld zeroSampleArgv).constructed = [0] ∧
    (main sampleParts sampleWorld zeroSampleArgv).outputs
      = ["out.fastq", "out.fastq.weights"] ∧
    (main sampleParts sampleWorld overwrittenRepsArgv).status = .returned 0 ∧
    (main sampleParts sampleWorld overwrittenRepsArgv).sketch = some (10, 10000) := by
  refine ⟨by rfl, by rfl, by rfl, by rfl, by rfl⟩

/-- Witness for C5: the run with a sample size of zero, and the run with
`--reps 0` after a first option that takes up the overwritten bytes. -/
theorem invalid_configuration_witness :
    (main sampleParts sampleWorld zeroSampleArgv).status ≠ .returned 0 ∧
    (main sampleParts sampleWorld zeroRepsArgv).status ≠ .returned 0 ∧
    (main sampleParts sampleWorld zeroRepsArgv).status = .returned (-1) :=
  ⟨(invalid_configuration_rejected_before_the_stream sampleParts sampleWorld
      zeroSampleArgv).2.1 0 (by decide) (by decide) (by decide),
    (invalid_configuration_rejected_before_the_stream sampleParts sampleWorld
      zeroRepsArgv).2.2.1 "--reps"
      ["diversesample", "2", "SE", "in.fastq", "out.fastq"] ["--range", "16"] "0" [] 0
      (by decide) (cstrings_of_all _ (by decide)) rfl (by decide) (by decide) (by decide)
      (by decide) (by decide),
    ((invalid_configuration_rejected_before_the_stream sampleParts sampleWorld
      zeroRepsArgv).2.2.2
      { sample_size := 2, format := .SE, file_extension := "fastq", race_range := 10000,
        race_repetitions := 0, hash_power := 1, kmer_k := 16, seed := 1 }
      { argv := ["diversesample", "2", "SE", "in.fastq", "out.fastq.weights", "weights",
          "16", "--reps", "0"],
        inputs := ["in.fastq"], outputs := ["out.fastq", "out.fastq.weights"],
        constructed := [2] }
      (by rfl) (Or.inr (Or.inr (Or.inl (by decide))))).1⟩

/-! ## Paired outputs -/

/-- Without `--reps` among the arguments the parsed number of repetitions
is the initial value of line 129. -/
theorem repetitions_without_option (clock : Nat) (argv : List String) (cfg : Config)
    (su : Setup) (h : parseArgs clock argv = .ok (cfg, su)) (hc : CStrings argv)
    (habs : "--reps" ∉ argv) : cfg.race_repetitions = 10 :=
  parameter_default clock argv cfg su h hc "--reps" (by decide) habs

/-- C7: the run `diversesample 2 SE in.fastq out.fastq`, which has no
`--reps`, constructs the RACE sketch with 10 repetitions (and range 10000)
and the MinHash extractor with 10 * 1 seeds, not with 100. -/
theorem default_repetitions_is_ten :
    "--reps" ∉ plainArgv ∧
    (main sampleParts sampleWorld plainArgv).status = .returned 0 ∧
    (main sampleParts sampleWorld plainArgv).sketch = some (10, 10000) ∧
    (main sampleParts sampleWorld plainArgv).extractor = some (10, 1) ∧
    (main sampleParts sampleWorld plainArgv).sketch ≠ some (100, 10000) := by
  refine ⟨by decide, by rfl, by rfl, by rfl, ?_⟩
  have h : (main sampleParts sampleWorld plainArgv).sketch = some (10, 10000) := by rfl
  rw [h]
  decide

theorem sample_extractions {σ : Type} (P : Parts σ) (w : World) (cfg : Config) (su : Setup) :
    (sample P w cfg su).final.map LoopState.extractions
      = some ((accepted (loopEvents w)).map (fun r => (cfg.kmer_k, r.sequence))) := by
  show some (streamLoop P cfg w (initialState P cfg) (loopEvents w)).extractions = _
  rw [streamLoop_extractions]
  rfl

/-- C8, as amended: the k-mer width is set by the option spelled `--k`.
In a run on C strings that returns 0, if `--k v` stands after the bytes
that `strcat` overwrites, `v` parses to `n` and no `--k` follows, every
accepted record is hashed with `k = n`; if `--k` is not among the arguments
(whatever else is, `-k` included), every accepted record is hashed with
`k = 16`. -/
theorem kmer_size_is_set_by_double_dash_k {σ : Type} (P : Parts σ) (w : World)
    (argv : List String) (hok : (main P w argv).status = .returned 0)
    (hc : CStrings argv) :
    (∀ (front mid : List String) (v : String) (post : List String) (n : Int),
      argv = front ++ mid ++ "--k" :: v :: post → front.length = throughFirstOutput argv →
      overwritten argv ≤ blockLength mid → "--k" ∉ post → stoi v = some n →
      (main P w argv).final.map LoopState.extractions
        = some ((accepted (loopEvents w)).map (fun r => (n, r.sequence)))) ∧
    ("--k" ∉ argv →
      (main P w argv).final.map LoopState.extractions
        = some ((accepted (loopEvents w)).map (fun r => ((16 : Int), r.sequence)))) := by
  obtain ⟨cfg, su, hp, hi⟩ := (status_zero_iff P w argv).mp hok
  rw [main_of_valid P w argv cfg su hp hi, sample_extractions]
  constructor
  · intro front mid v post n hargv hfront hover hlast hv
    have hkn : cfg.kmer_k = n :=
      parameter_from_argv w.clock argv cfg su hp hc "--k" (by decide) front mid v post n
        hargv hfront hover hlast hv
    rw [hkn]
  · intro habs
    have hkn : cfg.kmer_k = 16 :=
      parameter_default w.clock argv cfg su hp hc "--k" (by decide) habs
    rw [hkn]

/-- Witness for C8 as amended: a single-end run with `--k 3` after a first
option that takes up the overwritten bytes. -/
theorem kmer_size_witness :
    (main sampleParts sampleWorld doubleDashArgv).status = .returned 0 ∧
    CStrings doubleDashArgv ∧
    (main sampleParts sampleWorld doubleDashArgv).final.map LoopState.extractions
      = some ((accepted (loopEvents sampleWorld)).map (fun r => ((3 : Int), r.sequence))) :=
  ⟨by rfl, cstrings_of_all _ (by decide),
    (kmer_size_is_set_by_double_dash_k sampleParts sampleWorld doubleDashArgv (by rfl)
      (cstrings_of_all _ (by decide))).1
      ["diversesample", "2", "SE", "in.fastq", "out.fastq"] ["--range", "16"] "3" [] 3
      rfl (by decide) (by decide) (by simp) (by decide)⟩

/-- Counterexample to C8 as stated: the run
`diversesample 2 SE in.fastq out.fastq --range 16 -k 3` returns 0 and
hashes both accepted records with `k = 16`, not with `k = 3`, while the
same run with `--k 3` hashes them with `k = 3`; and with `--k 3` directly
after the output path the records are hashed with `k = 16` as well, the
two arguments having been overwritten by `strcat`. -/
theorem single_dash_k_is_ignored :
    (main sampleParts sampleWorld singleDashArgv).status = .returned 0 ∧
    (main sampleParts sampleWorld singleDashArgv).final.map LoopState.extractions
      = some [(16, "AAAATTTT"), (16, "AAAATTTT")] ∧
    (main sampleParts sampleWorld doubleDashArgv).final.map LoopState.extractions
      = some [(3, "AAAATTTT"), (3, "AAAATTTT")] ∧
    (main sampleParts sampleWorld overwrittenKArgv).status = .returned 0 ∧
    (main sampleParts sampleWorld overwrittenKArgv).final.map LoopState.extractions
      = some [(16, "AAAATTTT"), (16, "AAAATTTT")] := by
  refine ⟨by rfl, by rfl, by rfl, by rfl, by rfl⟩

/-! ## Exit status -/

theorem rfindFrom_none (c : Char) (l : List Char) : ∀ i, rfindFrom c l i = none ↔ c ∉ l := by
  induction l with
  | nil => intro i; simp [rfindFrom]
  | cons x xs ih =>
    intro i
    unfold rfindFrom
    cases h : rfindFrom c xs (i + 1) with
    | some j =>
      have hin : ¬ c ∉ xs := fun hc => by
        have := (ih (i + 1)).mpr hc
        rw [h] at this
        cases this
      simp only [List.mem_cons, not_or]
      constructor
      · intro hc; cases hc
      · intro hc; exact absurd hc.2 hin
    | none =>
      have hnot : c ∉ xs := (ih (i + 1)).mp h
      simp only [List.mem_cons, not_or]
      by_cases hx : x = c
      · rw [if_pos hx]
        constructor
        · intro hc; cases hc
        · intro hc; exact absurd hx.symm hc.1
      · rw [if_neg hx]
        constructor
        · intro _; exact ⟨fun hc => hx hc.symm, hnot⟩
        · intro _; rfl

/-- The index `rfind` gives splits the string at its last `c`. -/
theorem rfindFrom_some (c : Char) (l : List Char) : ∀ i j, rfindFrom c l i = some j →
    ∃ stem ext, l = stem ++ c :: ext ∧ c ∉ ext ∧ j = i + stem.length := by
  induction l with
  | nil => intro i j h; cases h
  | cons x xs ih =>
    intro i j h
    unfold rfindFrom at h
    cases hr : rfindFrom c xs (i + 1) with
    | some k =>
      rw [hr] at h
      simp only [Option.some.injEq] at h
      obtain ⟨stem, ext, hl, hnot, hk⟩ := ih (i + 1) k hr
      refine ⟨x :: stem, ext, by rw [hl]; rfl, hnot, ?_⟩
      rw [← h, hk]
      simp only [List.length_cons]
      omega
    | none =>
      rw [hr] at h
      simp only at h
      by_cases hx : x = c
      · rw [if_pos hx] at h
        simp only [Option.some.injEq] at h
        exact ⟨[], xs, by rw [hx]; rfl, (rfindFrom_none c xs (i + 1)).mp hr, by simp [h]⟩
      · rw [if_neg hx] at h; cases h

theorem takeWhile_reverse_after (c : Char) (stem ext : List Char) (h : c ∉ ext) :
    ((stem ++ c :: ext).reverse.takeWhile (fun x => x ≠ c)).reverse = ext := by
  have hrev : (stem ++ c :: ext).reverse = ext.reverse ++ c :: stem.reverse := by simp
  rw [hrev]
  have key : ∀ (a b : List Char), (∀ x ∈ a, x ≠ c) →
      (a ++ c :: b).takeWhile (fun x => x ≠ c) = a := by
    intro a
    induction a with
    | nil => intro b _; simp [List.takeWhile]
    | cons y ys ih =>
      intro b hall
      have hy : y ≠ c := hall y (List.mem_cons_self _ _)
      simp only [List.cons_append, List.takeWhile_cons, ne_eq, hy, not_false_eq_true,
        decide_True, if_true]
      rw [ih b (fun x hx => hall x (List.mem_cons_of_mem _ hx))]
  rw [key ext.reverse stem.reverse (fun x hx hc => h (by rw [← hc]; exact List.mem_reverse.mp hx))]
  simp

/-- The extension the source computes, in terms of the split of the name at
its last dot. -/
theorem determineExtension_split (filename : String) (stem ext : List Char)
    (h : filename.data = stem ++ '.' :: ext) (hnot : '.' ∉ ext) :
    determineExtension filename = some (String.mk ext) := by
  unfold determineExtension
  simp only
  cases hr : rfindFrom '.' filename.data 0 with
  | none =>
    have := (rfindFrom_none '.' filename.data 0).mp hr
    rw [h] at this
    exact absurd (List.mem_append_right _ (List.mem_cons_self _ _)) this
  | some j =>
    obtain ⟨stem1, ext1, hl, hnot1, hj⟩ := rfindFrom_some '.' filename.data 0 j hr
    have hext : ext1 = ext := by
      have h1 := takeWhile_reverse_after '.' stem1 ext1 hnot1
      have h2 := takeWhile_reverse_after '.' stem ext hnot
      rw [← hl] at h1
      rw [← h] at h2
      rw [← h1, ← h2]
    subst hext
    have hlen : filename.length = stem1.length + 1 + ext1.length := by
      show filename.data.length = _
      rw [hl]; simp; omega
    have hsub : substr filename.data (j + 1) (filename.length - j) = ext1 := by
      unfold substr
      rw [hl, hj, hlen]
      have hd : (stem1 ++ '.' :: ext1).drop (0 + stem1.length + 1) = ext1 := by
        have : 0 + stem1.length + 1 = (stem1 ++ ['.']).length := by simp
        rw [this, show stem1 ++ '.' :: ext1 = (stem1 ++ ['.']) ++ ext1 by simp,
          List.drop_left]
      rw [hd]
      exact List.take_of_length_le (by omega)
    simp only [hsub]

/-- C10: for every first-input path, the extension the driver computes is
the substring after the last `.` of the path, and the run returns -1 when
the path has no `.`; the test `file_extension == "fq"` is dead (the
computation without it gives the same result for every path); a path that
ends in `.fq` is rejected; and the stream loop is reached only with the
extension `fasta` or `fastq`. -/
theorem extension_is_what_follows_the_last_dot (filename : String) :
    (determineExtension filename = none ↔ '.' ∉ filename.data) ∧
    (determineExtension filename = none → fileExtension filename = .error (.returned (-1))) ∧
    (∀ ext : String, determineExtension filename = some ext ↔
      ∃ stem : List Char, filename.data = stem ++ '.' :: ext.data ∧ '.' ∉ ext.data) ∧
    determineExtension filename = splitOnLastDot filename ∧
    determineExtension filename = determineExtensionWithoutFqTest filename ∧
    (∀ stem : String, fileExtension (stem ++ ".fq") = .error (.returned (-1))) ∧
    (∀ ext : String, fileExtension filename = .ok ext ↔
      determineExtension filename = some ext ∧ (ext = "fasta" ∨ ext = "fastq")) ∧
    (∀ (σ : Type) (P : Parts σ) (w : World) (argv : List String),
      argv.getD 3 "" = filename → (main P w argv).final ≠ none →
      determineExtension filename = some "fasta"
        ∨ determineExtension filename = some "fastq") := by
  have hnone : determineExtension filename = none ↔ '.' ∉ filename.data := by
    unfold determineExtension
    simp only
    cases hr : rfindFrom '.' filename.data 0 with
    | none => simpa using (rfindFrom_none '.' filename.data 0).mp hr
    | some j =>
      have : ¬ '.' ∉ filename.data := fun hc => by
        rw [(rfindFrom_none '.' filename.data 0).mpr hc] at hr
        cases hr
      simpa using this
  have hsome : ∀ ext : String, determineExtension filename = some ext ↔
      ∃ stem : List Char, filename.data = stem ++ '.' :: ext.data ∧ '.' ∉ ext.data := by
    intro ext
    constructor
    · intro h
      by_cases hdot : '.' ∈ filename.data
      · cases hr : rfindFrom '.' filename.data 0 with
        | none => exact absurd hdot ((rfindFrom_none '.' filename.data 0).mp hr)
        | some j =>
          obtain ⟨stem, e, hl, hnot, _⟩ := rfindFrom_some '.' filename.data 0 j hr
          rw [determineExtension_split filename stem e hl hnot] at h
          simp only [Option.some.injEq] at h
          subst h
          exact ⟨stem, hl, hnot⟩
      · rw [hnone.mpr hdot] at h; cases h
    · rintro ⟨stem, hl, hnot⟩
      exact determineExtension_split filename stem ext.data hl hnot
  have hfq : ∀ stem : String, fileExtension (stem ++ ".fq") = .error (.returned (-1)) := by
    intro stem
    have hd : determineExtension (stem ++ ".fq") = some "fq" :=
      determineExtension_split (stem ++ ".fq") stem.data ['f', 'q']
        (by rw [String.data_append]) (by decide)
    unfold fileExtension
    rw [hd]
    rfl
  have hok : ∀ ext : String, fileExtension filename = .ok ext ↔
      determineExtension filename = some ext ∧ (ext = "fasta" ∨ ext = "fastq") := by
    intro ext
    constructor
    · exact fileExtension_ok filename ext
    · rintro ⟨hd, hor⟩
      unfold fileExtension
      rw [hd]
      simp only
      rcases hor with h | h <;> subst h <;> rfl
  refine ⟨hnone, ?_, hsome, ?_, rfl, hfq, hok, ?_⟩
  · intro h
    unfold fileExtension
    rw [h]
  · unfold splitOnLastDot
    by_cases hdot : '.' ∈ filename.data
    · rw [if_pos hdot]
      cases hr : rfindFrom '.' filename.data 0 with
      | none => exact absurd hdot ((rfindFrom_none '.' filename.data 0).mp hr)
      | some j =>
        obtain ⟨stem, e, hl, hnot, _⟩ := rfindFrom_some '.' filename.data 0 j hr
        rw [determineExtension_split filename stem e hl hnot, hl,
          takeWhile_reverse_after '.' stem e hnot]
    · rw [if_neg hdot]
      exact hnone.mpr hdot
  · intro σ P w argv harg hfin
    rcases main_cases P w argv with ⟨e, _, hm⟩ | ⟨cfg, su, hp, _, _⟩
    · rw [hm] at hfin
      exact absurd rfl hfin
    · obtain ⟨_, ho, hf, _⟩ := parseArgs_ok _ _ _ _ hp
      rw [openStreams_input argv _ _ su ho, harg] at hf
      obtain ⟨hd, hor⟩ := fileExtension_ok _ _ hf
      rcases hor with h | h
      · left; rw [hd, h]
      · right; rw [hd, h]

end DiverseSample
